import Mathlib

/-!
# pzip: parallel run-length encoding

A shallow embedding of `src/pzip.c` and `include/pzip.h`.

Modelling conventions.

* A C array or pointer target is a total function from indices to values (a
  region of memory): the code indexes without bounds checks, so a read or write
  past the end of a buffer is a read or write of the neighbouring cell of the
  same region.  Distinct regions never alias.
* `char` and `int` values are `Int`, `uint8_t` values are `Nat`; array subscripts that the code only ever
  computes from non-negative counters (`runner`, `char_ptr`,
  `zipped_chars_index`, `order`) are `Nat`.  The only narrowing conversion of
  the program, `int` to `uint8_t` in `append_to_zipped_chars`, is the explicit
  `% 256`.  All other quantities are bounded by the input length or the worker
  count, both C `int`s.
* Memory obtained from `malloc` has arbitrary contents: the fresh block is an
  explicit argument (`run_env`).
* The threads are modelled by sequential schedules: the workers run their
  compression phase one after the other in the order `compress_order`, meet at
  the barrier, and run `write_to_zipped_chars` in the order `write_order`.
  That the barrier does separate the two phases is the subject of the step
  relation `step`, whose interleavings are the lists of `event`s.
* `while(true)` of `compress` is run with fuel; running out of fuel is `none`.
-/

namespace Pzip

/-- The struct `zipped_char` of pzip.h: `char character; uint8_t occurence`. -/
structure zipped_char where
  character : Int
  occurence : Nat
  deriving DecidableEq, Repr

/-- The struct `write_to_location` of pzip.h: `int length; int start_index`. -/
structure write_to_location where
  length : Int
  start_index : Int
  deriving DecidableEq, Repr

/-- The struct `thread_args` of pzip.h.  The field `input_chars` is the pointer
`input_chars + index * size`, kept as its offset from the start of the input
buffer.  The pointers to the shared outputs are passed as explicit state. -/
structure thread_args where
  n_threads : Nat
  input_chars : Nat
  input_chars_size : Nat
  order : Nat
  deriving DecidableEq, Repr

/-- The assignment `a[i] = v` on a region indexed by `ι`. -/
def upd {ι α : Type} [DecidableEq ι] (a : ι → α) (i : ι) (v : α) : ι → α :=
  fun j => if j = i then v else a j

/-- The function `increment_char_frequency` (pzip.c, 164-166):
`char_frequency[character - 'a'] += occurences`, with `'a' = 97`. -/
def increment_char_frequency (char_frequency : Int → Int) (character : Int)
    (occurences : Int) : Int → Int :=
  upd char_frequency (character - 97) (char_frequency (character - 97) + occurences)

/-- The function `append_to_zipped_chars` (pzip.c, 168-178): a fresh struct with
`character` and the count narrowed to `uint8_t` is stored at `index`. -/
def append_to_zipped_chars (character : Int) (occurence : Int)
    (zipped_chars : Nat → zipped_char) (index : Nat) : Nat → zipped_char :=
  upd zipped_chars index { character := character, occurence := (occurence % 256).toNat }

/-- The local variables of `compress` together with the memory it writes. -/
structure compress_state where
  char_ptr : Nat
  runner : Nat
  zipped_chars_index : Nat
  zipped_chars : Nat → zipped_char
  char_frequency : Int → Int

/-- The `if` statement at pzip.c 145-154, the first statement of the loop body.
Note the order of the statements: `char_ptr = runner` comes before the call of
`increment_char_frequency`, which therefore receives `input_chars[runner]`. -/
def compress_body (input_chars : Nat → Int) (input_chars_size : Nat)
    (s : compress_state) : compress_state :=
  if s.runner = input_chars_size ∨ input_chars s.char_ptr ≠ input_chars s.runner then
    let occurences : Int := (s.runner : Int) - (s.char_ptr : Int)
    let zipped_chars := append_to_zipped_chars (input_chars s.char_ptr) occurences
      s.zipped_chars s.zipped_chars_index
    let zipped_chars_index := s.zipped_chars_index + 1
    let char_ptr := s.runner
    { char_ptr := char_ptr
      runner := s.runner
      zipped_chars_index := zipped_chars_index
      zipped_chars := zipped_chars
      char_frequency :=
        increment_char_frequency s.char_frequency (input_chars char_ptr) occurences }
  else s

/-- The loop `while(true)` at pzip.c 144-157, with fuel. -/
def compress_loop (input_chars : Nat → Int) (input_chars_size : Nat) :
    Nat → compress_state → Option compress_state
  | 0, _ => none
  | fuel + 1, s =>
    let s1 := compress_body input_chars input_chars_size s
    if s1.runner = input_chars_size then some s1
    else compress_loop input_chars input_chars_size fuel { s1 with runner := s1.runner + 1 }

/-- The function `compress` (pzip.c, 135-162).  `zipped_chars` is the block that
`malloc` returns, `lengths` the global table.  The result is the local array,
the histogram and the table with `lengths[order].length` set. -/
def compress (input_chars : Nat → Int) (input_chars_size : Nat)
    (char_frequency : Int → Int) (order : Nat)
    (lengths : Nat → write_to_location) (zipped_chars : Nat → zipped_char) :
    Option ((Nat → zipped_char) × (Int → Int) × (Nat → write_to_location)) :=
  match compress_loop input_chars input_chars_size (input_chars_size + 1)
      { char_ptr := 0, runner := 0, zipped_chars_index := 0,
        zipped_chars := zipped_chars, char_frequency := char_frequency } with
  | none => none
  | some s =>
    some (s.zipped_chars, s.char_frequency,
      upd lengths order { lengths order with length := (s.zipped_chars_index : Int) })

/-- The function `calc_starting_index` (pzip.c, 105-111): the table after the
call and the returned value. -/
def calc_starting_index (lengths : Nat → write_to_location) :
    Nat → (Nat → write_to_location) × Int
  | 0 => (lengths, (lengths 0).length + (lengths 0).start_index)
  | order + 1 =>
    if (lengths (order + 1)).start_index ≠ -1 then
      (lengths, (lengths (order + 1)).length + (lengths (order + 1)).start_index)
    else
      let r := calc_starting_index lengths order
      let lengths1 := upd r.1 (order + 1) { r.1 (order + 1) with start_index := r.2 }
      (lengths1, (lengths1 (order + 1)).start_index + (lengths1 (order + 1)).length)

/-- The function `write_to_zipped_chars` (pzip.c, 87-103): the offset is
resolved, then the local pairs are copied to `i + starting_index`. -/
def write_to_zipped_chars (global_zipped_chars : Int → zipped_char)
    (local_zipped_chars : Nat → zipped_char) (order : Nat)
    (lengths : Nat → write_to_location) :
    (Int → zipped_char) × (Nat → write_to_location) :=
  let lengths1 :=
    if (lengths order).start_index = -1 then (calc_starting_index lengths order).1
    else lengths
  let starting_index := (lengths1 order).start_index
  ((List.range (lengths1 order).length.toNat).foldl
      (fun (g : Int → zipped_char) (i : Nat) => upd g ((i : Int) + starting_index)
        { character := (local_zipped_chars i).character
          occurence := (local_zipped_chars i).occurence })
      global_zipped_chars,
    lengths1)

/-- The function `create_args` (pzip.c, 113-131); `input_chars` is the offset of
the pointer it receives. -/
def create_args (n_threads : Nat) (input_chars : Nat) (input_chars_size : Nat)
    (index : Nat) : thread_args :=
  let size := input_chars_size / n_threads
  { n_threads := n_threads
    input_chars := input_chars + index * size
    input_chars_size := size
    order := index }

/-- The function `malloc_lengths` (pzip.c, 195-208); `temp` is the block that
`malloc` returns. -/
def malloc_lengths (n_threads : Nat) (temp : Nat → write_to_location) :
    Nat → write_to_location :=
  (List.range' 1 (n_threads - 1)).foldl
    (fun t i => upd t i { t i with start_index := -1 })
    (upd temp 0 { temp 0 with start_index := 0 })

/-- What the model needs beyond the arguments of `pzip`: the contents of the
blocks that `malloc` returns and the two schedules. -/
structure run_env where
  temp : Nat → write_to_location
  heap : Nat → Nat → zipped_char
  compress_order : List Nat
  write_order : List Nat

/-- The memory shared by the threads, and each worker's `zipped_chars_local`. -/
structure shared where
  lengths : Nat → write_to_location
  char_frequency : Int → Int
  zipped_chars : Int → zipped_char
  zipped_chars_local : Nat → Nat → zipped_char

/-- The part of `thread_execution` before the barrier (pzip.c, 78), run by the
worker with arguments `t`, as unpacked by `arg_unpacking`. -/
def thread_execution_compress (input_chars : Nat → Int) (heap : Nat → Nat → zipped_char)
    (t : thread_args) (sh : shared) : Option shared :=
  match compress (fun j => input_chars (t.input_chars + j)) t.input_chars_size
      sh.char_frequency t.order sh.lengths (heap t.order) with
  | none => none
  | some r =>
    some { sh with
      lengths := r.2.2
      char_frequency := r.2.1
      zipped_chars_local := upd sh.zipped_chars_local t.order r.1 }

/-- The part of `thread_execution` after the barrier (pzip.c, 82). -/
def thread_execution_write (t : thread_args) (sh : shared) : shared :=
  let r := write_to_zipped_chars sh.zipped_chars (sh.zipped_chars_local t.order)
    t.order sh.lengths
  { sh with zipped_chars := r.1, lengths := r.2 }

/-- All workers of a schedule run the part before the barrier. -/
def compress_phase (n_threads : Nat) (input_chars : Nat → Int) (input_chars_size : Nat)
    (heap : Nat → Nat → zipped_char) : List Nat → shared → Option shared
  | [], sh => some sh
  | i :: rest, sh =>
    match thread_execution_compress input_chars heap
        (create_args n_threads 0 input_chars_size i) sh with
    | none => none
    | some sh1 => compress_phase n_threads input_chars input_chars_size heap rest sh1

/-- All workers of a schedule run the part after the barrier. -/
def write_phase (n_threads : Nat) (input_chars_size : Nat) : List Nat → shared → shared
  | [], sh => sh
  | i :: rest, sh =>
    write_phase n_threads input_chars_size rest
      (thread_execution_write (create_args n_threads 0 input_chars_size i) sh)

/-- The outputs of `pzip`, with the shared state at pzip.c 64 (before it is
freed) kept for the statements about the workers. -/
structure pzip_result where
  zipped_chars : Int → zipped_char
  zipped_chars_count : Int
  char_frequency : Int → Int
  final : shared

/-- The function `create_threads` (pzip.c, 40-68), for `n_threads ≥ 1`: the
table is allocated, the workers run up to the barrier and then past it, and the
count is read from the entry of the last worker.  (For `n_threads = 0` the code
reads `lengths[-1]`, which this definition does not model.) -/
def create_threads (n_threads : Nat) (input_chars : Nat → Int) (input_chars_size : Nat)
    (zipped_chars : Int → zipped_char) (char_frequency : Int → Int) (env : run_env) :
    Option pzip_result :=
  let lengths := malloc_lengths n_threads env.temp
  match compress_phase n_threads input_chars input_chars_size env.heap env.compress_order
      { lengths := lengths, char_frequency := char_frequency,
        zipped_chars := zipped_chars, zipped_chars_local := env.heap } with
  | none => none
  | some sh1 =>
    let sh2 := write_phase n_threads input_chars_size env.write_order sh1
    some
      { zipped_chars := sh2.zipped_chars
        zipped_chars_count :=
          (sh2.lengths (n_threads - 1)).length + (sh2.lengths (n_threads - 1)).start_index
        char_frequency := sh2.char_frequency
        final := sh2 }

/-- The function `pzip` (pzip.c, 32-37). -/
def pzip (n_threads : Nat) (input_chars : Nat → Int) (input_chars_size : Nat)
    (zipped_chars : Int → zipped_char) (char_frequency : Int → Int) (env : run_env) :
    Option pzip_result :=
  create_threads n_threads input_chars input_chars_size zipped_chars char_frequency env

/-- The entries `zipped_chars[0 .. zipped_chars_count)` of a result. -/
def zipped_output (r : pzip_result) : List zipped_char :=
  (List.range r.zipped_chars_count.toNat).map (fun (i : Nat) => r.zipped_chars (i : Int))

/-- The pairs worker `i` holds in its local array: the first
`lengths[i].length` entries of `zipped_chars_local`. -/
def worker_output (sh : shared) (i : Nat) : List zipped_char :=
  (List.range (sh.lengths i).length.toNat).map (sh.zipped_chars_local i)

/-- The slice `[offset, offset + size)` of the input, as a list. -/
def slice (input_chars : Nat → Int) (offset size : Nat) : List Int :=
  (List.range size).map (fun j => input_chars (offset + j))

/-- A NUL-terminated C string in memory: the characters, then zero bytes. -/
def c_string (s : List Int) : Nat → Int := fun i => s.getD i 0

/-- An environment with zeroed blocks and both schedules in index order. -/
def env0 (n_threads : Nat) : run_env :=
  { temp := fun _ => { length := 0, start_index := 0 }
    heap := fun _ _ => { character := 0, occurence := 0 }
    compress_order := List.range n_threads
    write_order := List.range n_threads }

/-! ## Reference definitions -/

/-- Reference run-length encoder, scanning left to right: `c` is the character
of the open run and `n` the number of its characters seen so far. -/
def rle_go (c : Int) (n : Nat) : List Int → List (Int × Nat)
  | [] => [(c, n)]
  | x :: xs => if x = c then rle_go c (n + 1) xs else (c, n) :: rle_go x 1 xs

/-- Single-threaded run-length encoding of a list of characters: one pair
(character, run length) per maximal run of equal characters. -/
def rle : List Int → List (Int × Nat)
  | [] => []
  | x :: xs => rle_go x 1 xs

/-- The struct in which a pair is stored: the count is narrowed to 8 bits. -/
def stored (p : Int × Nat) : zipped_char :=
  { character := p.1, occurence := p.2 % 256 }

/-- The pairs `compress` appends for the slice of length `size` at `input_chars`. -/
def emitted (input_chars : Nat → Int) (size : Nat) : List zipped_char :=
  (rle_go (input_chars 0) 0 ((List.range' 0 size).map input_chars)).map stored

/-- The calls of `increment_char_frequency` that `compress` makes, read off the
runs: each run's length is added to the character that follows the run, and the
last run's length to `last`, the character right after the slice. -/
def incs (last : Int) : List (Int × Nat) → List (Int × Nat)
  | [] => []
  | [p] => [(last, p.2)]
  | p :: q :: rest => (q.1, p.2) :: incs last (q :: rest)

/-- The histogram after a list of calls of `increment_char_frequency`. -/
def add_all (char_frequency : Int → Int) (l : List (Int × Nat)) : Int → Int :=
  l.foldl (fun cf p => increment_char_frequency cf p.1 (p.2 : Int)) char_frequency

/-- The array `z` after the elements of `l` are stored from index `idx` on. -/
def fill (z : Nat → zipped_char) (idx : Nat) : List zipped_char → Nat → zipped_char
  | [] => z
  | x :: xs => fill (upd z idx x) (idx + 1) xs

/-- The runs that the loop of `compress` closes on the slice of length `size` at
`input_chars`, with their full lengths. -/
def runs (input_chars : Nat → Int) (size : Nat) : List (Int × Nat) :=
  rle_go (input_chars 0) 0 ((List.range' 0 size).map input_chars)

/-- The slice of worker `i`, as `compress` sees it through its pointer. -/
def worker_view (n_threads : Nat) (input_chars : Nat → Int) (input_chars_size : Nat)
    (i : Nat) : Nat → Int :=
  fun j => input_chars ((create_args n_threads 0 input_chars_size i).input_chars + j)

/-- The pairs worker `i` appends during its compression phase. -/
def worker_emitted (n_threads : Nat) (input_chars : Nat → Int) (input_chars_size : Nat)
    (i : Nat) : List zipped_char :=
  emitted (worker_view n_threads input_chars input_chars_size i)
    (input_chars_size / n_threads)

/-- The sum of `lengths[j].length` over the workers `j < i`. -/
def prefix_len (lengths : Nat → write_to_location) (i : Nat) : Int :=
  ((List.range i).map (fun j => (lengths j).length)).sum

/-- The state of the table between two resolutions: entry 0 is resolved to 0
and every entry of a worker is either unresolved or the prefix sum. -/
def offsets_ok (K : Nat) (lengths : Nat → write_to_location) : Prop :=
  (lengths 0).start_index = 0 ∧
  ∀ i, i < K → (lengths i).start_index = -1 ∨ (lengths i).start_index = prefix_len lengths i

/-- The number of pairs appended by the workers before worker `i`. -/
def worker_offset (n_threads : Nat) (input_chars : Nat → Int) (input_chars_size : Nat)
    (i : Nat) : Nat :=
  ((List.range i).map
    (fun j => (worker_emitted n_threads input_chars input_chars_size j).length)).sum

/-- Decoding: every pair is expanded to its run. -/
def expand : List (Int × Nat) → List Int
  | [] => []
  | p :: ps => List.replicate p.2 p.1 ++ expand ps

/-- Merging of adjacent pairs of the same character, scanning left to right:
`c` is the character of the open pair and `n` its count so far. -/
def coalesce_go (c : Int) (n : Nat) : List (Int × Nat) → List (Int × Nat)
  | [] => [(c, n)]
  | p :: ps => if p.1 = c then coalesce_go c (n + p.2) ps else (c, n) :: coalesce_go p.1 p.2 ps

/-- The sequence of pairs in which adjacent pairs of the same character are
merged into one pair, their counts added. -/
def coalesce : List (Int × Nat) → List (Int × Nat)
  | [] => []
  | p :: ps => coalesce_go p.1 p.2 ps

/-- The (character, count) pairs held by a list of structs. -/
def pairs (l : List zipped_char) : List (Int × Nat) :=
  l.map (fun z => (z.character, z.occurence))

/-- The shared state at the barrier for `K` workers: the table of
`malloc_lengths` in which worker `i` has stored the length `len i`. -/
def at_barrier (K : Nat) (temp : Nat → write_to_location) (len : Nat → Int)
    (z : Int → zipped_char) (cf : Int → Int) (loc : Nat → Nat → zipped_char) : shared :=
  { lengths := fun i => { length := len i,
                          start_index := (malloc_lengths K temp i).start_index }
    char_frequency := cf
    zipped_chars := z
    zipped_chars_local := loc }

/-- The index `idx` of the output array lies in the range that worker `i` writes:
`[lengths[i].start_index, lengths[i].start_index + lengths[i].length)`. -/
def write_range (sh : shared) (i : Nat) (idx : Int) : Prop :=
  (sh.lengths i).start_index ≤ idx ∧
    idx < (sh.lengths i).start_index + (sh.lengths i).length

/-- The index `idx` of the input lies in the slice described by `t`:
`[t.input_chars, t.input_chars + t.input_chars_size)`. -/
def in_slice (t : thread_args) (idx : Nat) : Prop :=
  t.input_chars ≤ idx ∧ idx < t.input_chars + t.input_chars_size

/-- The pairs in the local array that `compress` returns for the worker `order`:
its first `lengths[order].length` entries. -/
def compress_output
    (res : (Nat → zipped_char) × (Int → Int) × (Nat → write_to_location)) (order : Nat) :
    List zipped_char :=
  (List.range (res.2.2 order).length.toNat).map res.1

/-- What a list of calls of `increment_char_frequency` adds to the entry `j`. -/
def tally (l : List (Int × Nat)) (j : Int) : Int :=
  (l.map (fun p => if p.1 - 97 = j then (p.2 : Int) else 0)).sum

/-- The calls of `increment_char_frequency` that worker `i` makes. -/
def worker_incs (n_threads : Nat) (input_chars : Nat → Int) (input_chars_size : Nat)
    (i : Nat) : List (Int × Nat) :=
  incs (worker_view n_threads input_chars input_chars_size i (input_chars_size / n_threads))
    (runs (worker_view n_threads input_chars input_chars_size i)
      (input_chars_size / n_threads))

/-- The indices at which one pass through the loop body of `compress` reads
`input_chars` (pzip.c, 145-152), in order: the two operands of the comparison,
unless `runner == input_chars_size` decides the condition first; then, when the
condition holds, `input_chars[char_ptr]` for `append_to_zipped_chars` and, after
`char_ptr = runner`, `input_chars[char_ptr]` for `increment_char_frequency`. -/
def compress_body_reads (input_chars : Nat → Int) (input_chars_size : Nat)
    (s : compress_state) : List Nat :=
  (if s.runner = input_chars_size then [] else [s.char_ptr, s.runner]) ++
    (if s.runner = input_chars_size ∨ input_chars s.char_ptr ≠ input_chars s.runner then
      [s.char_ptr, s.runner]
    else [])

/-- The indices at which the loop of `compress` reads `input_chars`, in order;
the states are those of `compress_loop`. -/
def compress_loop_reads (input_chars : Nat → Int) (input_chars_size : Nat) :
    Nat → compress_state → List Nat
  | 0, _ => []
  | fuel + 1, s =>
    let s1 := compress_body input_chars input_chars_size s
    compress_body_reads input_chars input_chars_size s ++
      (if s1.runner = input_chars_size then []
       else compress_loop_reads input_chars input_chars_size fuel
        { s1 with runner := s1.runner + 1 })

/-- The indices at which `compress` reads `input_chars`, in order. -/
def compress_reads (input_chars : Nat → Int) (input_chars_size : Nat)
    (char_frequency : Int → Int) (zipped_chars : Nat → zipped_char) : List Nat :=
  compress_loop_reads input_chars input_chars_size (input_chars_size + 1)
    { char_ptr := 0, runner := 0, zipped_chars_index := 0,
      zipped_chars := zipped_chars, char_frequency := char_frequency }

/-- The function `create_args` on C `int`s (pzip.c, 121-129): the offset of the
slice, its length and the order.  The division of C truncates toward zero. -/
def create_args_int (n_threads input_chars input_chars_size index : Int) : Int × Int × Int :=
  let size := Int.tdiv input_chars_size n_threads
  (input_chars + index * size, size, index)

/-- The function `pzip` called with C `int`s that may be negative.  The code
never compares `n_threads` or `input_chars_size` with 0, and it uses
`input_chars_size` only in the division of `create_args`.  For `n_threads ≥ 1`
and a slice length `size ≥ 0` the run is the run of `pzip` with slices of that
length, taken here at the input length `n_threads * size`, which has the same
quotient.  The other calls are outside this model (`none`): for `n_threads ≤ 0`
the code declares arrays of `n_threads` elements and reads `lengths[-1]`, for
`size < 0` it allocates a negative number of bytes. -/
def pzip_int (n_threads : Int) (input_chars : Nat → Int) (input_chars_size : Int)
    (zipped_chars : Int → zipped_char) (char_frequency : Int → Int) (env : run_env) :
    Option pzip_result :=
  if 1 ≤ n_threads ∧ 0 ≤ (create_args_int n_threads 0 input_chars_size 0).2.1 then
    pzip n_threads.toNat input_chars
      (n_threads.toNat * (create_args_int n_threads 0 input_chars_size 0).2.1.toNat)
      zipped_chars char_frequency env
  else none

/-- The steps of the threads of `create_threads` between which the other threads
may run: those of the coordinating thread and, for the worker `i`, the
statements of `thread_execution`. -/
inductive event where
  /-- One pass through the loop at pzip.c 52-55: the next worker is started. -/
  | create : event
  /-- The coordinating thread calls `pthread_barrier_wait` (pzip.c, 57). -/
  | main_wait : event
  /-- The coordinating thread returns from `pthread_barrier_wait`. -/
  | main_go : event
  /-- The coordinating thread has joined all workers and sets the count
  (pzip.c, 60-64). -/
  | main_finish : event
  /-- Worker `i` runs `compress` (pzip.c, 78). -/
  | compress (i : Nat) : event
  /-- Worker `i` calls `pthread_barrier_wait` (pzip.c, 80). -/
  | wait (i : Nat) : event
  /-- Worker `i` returns from `pthread_barrier_wait`. -/
  | go (i : Nat) : event
  /-- Worker `i` runs `write_to_zipped_chars` (pzip.c, 82). -/
  | write (i : Nat) : event
  deriving DecidableEq, Repr

/-- The state of the threads of `create_threads`.  `parties` is the count the
barrier was initialised with and `arrived` the number of calls of
`pthread_barrier_wait` so far; `created` is the number of workers started.
`main_pc` is the position of the coordinating thread (0 starting workers, 1 in
`pthread_barrier_wait`, 2 past the barrier, 3 returned) and `pc i` the position
of worker `i` (0 before `compress`, 1 after `compress`, 2 in
`pthread_barrier_wait`, 3 past the barrier, 4 after `write_to_zipped_chars`).
`waits i` counts the calls of `pthread_barrier_wait` by worker `i`. -/
structure threads where
  parties : Nat
  arrived : Nat
  created : Nat
  main_pc : Nat
  pc : Nat → Nat
  waits : Nat → Nat
  sh : shared
  zipped_chars_count : Option Int

/-- The state after `pthread_barrier_init(&barrier, NULL, n_threads + 1)` and
`malloc_lengths(n_threads)` (pzip.c, 47-49). -/
def threads_init (n_threads : Nat) (zipped_chars : Int → zipped_char)
    (char_frequency : Int → Int) (env : run_env) : threads :=
  { parties := n_threads + 1
    arrived := 0
    created := 0
    main_pc := 0
    pc := fun _ => 0
    waits := fun _ => 0
    sh := { lengths := malloc_lengths n_threads env.temp, char_frequency := char_frequency,
            zipped_chars := zipped_chars, zipped_chars_local := env.heap }
    zipped_chars_count := none }

/-- One step of one thread; `none` when the thread cannot take the step in the
state `s`.  A thread returns from `pthread_barrier_wait` once as many threads
have called it as the barrier was initialised for. -/
def step (n_threads : Nat) (input_chars : Nat → Int) (input_chars_size : Nat)
    (heap : Nat → Nat → zipped_char) : event → threads → Option threads
  | event.create, s =>
    if s.main_pc = 0 ∧ s.created < n_threads then some { s with created := s.created + 1 }
    else none
  | event.main_wait, s =>
    if s.main_pc = 0 ∧ s.created = n_threads then
      some { s with main_pc := 1, arrived := s.arrived + 1 }
    else none
  | event.main_go, s =>
    if s.main_pc = 1 ∧ s.arrived = s.parties then some { s with main_pc := 2 } else none
  | event.main_finish, s =>
    if s.main_pc = 2 ∧ (List.range n_threads).all (fun i => decide (s.pc i = 4)) = true then
      some { s with
        main_pc := 3
        zipped_chars_count := some ((s.sh.lengths (n_threads - 1)).length +
          (s.sh.lengths (n_threads - 1)).start_index) }
    else none
  | event.compress i, s =>
    if i < s.created ∧ s.pc i = 0 then
      match thread_execution_compress input_chars heap
          (create_args n_threads 0 input_chars_size i) s.sh with
      | none => none
      | some sh1 => some { s with pc := upd s.pc i 1, sh := sh1 }
    else none
  | event.wait i, s =>
    if s.pc i = 1 then
      some { s with
        pc := upd s.pc i 2
        arrived := s.arrived + 1
        waits := upd s.waits i (s.waits i + 1) }
    else none
  | event.go i, s =>
    if s.pc i = 2 ∧ s.arrived = s.parties then some { s with pc := upd s.pc i 3 } else none
  | event.write i, s =>
    if s.pc i = 3 then
      some { s with
        pc := upd s.pc i 4
        sh := thread_execution_write (create_args n_threads 0 input_chars_size i) s.sh }
    else none

/-- An interleaving: the steps of a list are taken one after the other. -/
def run_events (n_threads : Nat) (input_chars : Nat → Int) (input_chars_size : Nat)
    (heap : Nat → Nat → zipped_char) : List event → threads → Option threads
  | [], s => some s
  | e :: es, s =>
    match step n_threads input_chars input_chars_size heap e s with
    | none => none
    | some s1 => run_events n_threads input_chars input_chars_size heap es s1

/-- The number of workers `i < k` that have called `pthread_barrier_wait`. -/
def waiting (pc : Nat → Nat) : Nat → Nat
  | 0 => 0
  | k + 1 => waiting pc k + (if 2 ≤ pc k then 1 else 0)

/-- The invariant of the interleavings of `create_threads`. -/
def threads_ok (K : Nat) (input : Nat → Int) (N : Nat) (z : Int → zipped_char)
    (temp : Nat → write_to_location) (s : threads) : Prop :=
  s.parties = K + 1 ∧
  s.created ≤ K ∧
  (1 ≤ s.main_pc → s.created = K) ∧
  (∀ i, s.created ≤ i → s.pc i = 0) ∧
  s.arrived = waiting s.pc K + (if 1 ≤ s.main_pc then 1 else 0) ∧
  (∀ i, 3 ≤ s.pc i → s.arrived = s.parties) ∧
  (∀ j, 1 ≤ s.pc j →
    (s.sh.lengths j).length = ((worker_emitted K input N j).length : Int)) ∧
  (∀ i, s.waits i = if 2 ≤ s.pc i then 1 else 0) ∧
  ((∀ i, s.pc i < 4) →
    s.sh.zipped_chars = z ∧
    ∀ j, (s.sh.lengths j).start_index = (malloc_lengths K temp j).start_index)

/-! ## The loop of `compress` -/

theorem upd_same {ι α : Type} [DecidableEq ι] (a : ι → α) (i : ι) (v : α) :
    upd a i v i = v := by simp [upd]

theorem upd_other {ι α : Type} [DecidableEq ι] (a : ι → α) (i j : ι) (v : α)
    (h : j ≠ i) : upd a i v j = a j := by simp [upd, h]

theorem fill_below (l : List zipped_char) : ∀ (z : Nat → zipped_char) (idx j : Nat),
    j < idx → fill z idx l j = z j := by
  induction l with
  | nil => intro z idx j _; rfl
  | cons x xs ih =>
    intro z idx j h
    rw [fill, ih _ _ _ (by omega), upd_other _ _ _ _ (by omega)]

theorem fill_at (l : List zipped_char) : ∀ (z : Nat → zipped_char) (idx j : Nat)
    (h : j < l.length), fill z idx l (idx + j) = l.get ⟨j, h⟩ := by
  induction l with
  | nil => intro z idx j h; simp at h
  | cons x xs ih =>
    intro z idx j h
    cases j with
    | zero =>
      rw [fill, fill_below _ _ _ _ (by omega)]
      simp [upd]
    | succ j =>
      have h2 : j < xs.length := by simpa using h
      have := ih (upd z idx x) (idx + 1) j h2
      rw [fill, show idx + (j + 1) = idx + 1 + j by omega, this]
      rfl

theorem map_fill (l : List zipped_char) (z : Nat → zipped_char) :
    (List.range l.length).map (fill z 0 l) = l := by
  apply List.ext_get
  · simp
  · intro n h1 h2
    simp only [List.get_eq_getElem, List.getElem_map, List.getElem_range]
    have := fill_at l z 0 n h2
    simpa using this

theorem stored_cast (c : Int) (p r : Nat) (h : p ≤ r) :
    ({ character := c, occurence := (((r : Int) - (p : Int)) % 256).toNat } : zipped_char)
      = stored (c, r - p) := by
  simp only [stored]
  congr 1
  omega

theorem rle_go_head (xs : List Int) : ∀ (c : Int) (n : Nat),
    ∃ m t, rle_go c n xs = (c, m) :: t := by
  induction xs with
  | nil => intro c n; exact ⟨n, [], rfl⟩
  | cons x xs ih =>
    intro c n
    by_cases h : x = c
    · obtain ⟨m, t, e⟩ := ih c (n + 1)
      exact ⟨m, t, by simp [rle_go, h, e]⟩
    · exact ⟨n, rle_go x 1 xs, by simp [rle_go, h]⟩

theorem incs_cons (last c d : Int) (n k : Nat) (xs : List Int) :
    incs last ((c, n) :: rle_go d k xs) = (d, n) :: incs last (rle_go d k xs) := by
  obtain ⟨m, t, e⟩ := rle_go_head xs d k
  rw [e]
  rfl

theorem compress_loop_spec (f : Nat → Int) (size : Nat) :
    ∀ (n : Nat) (s : compress_state), s.char_ptr ≤ s.runner → size = s.runner + n →
    ∃ s1, compress_loop f size (n + 1) s = some s1 ∧
      s1.zipped_chars_index = s.zipped_chars_index +
        (rle_go (f s.char_ptr) (s.runner - s.char_ptr) ((List.range' s.runner n).map f)).length ∧
      s1.zipped_chars = fill s.zipped_chars s.zipped_chars_index
        ((rle_go (f s.char_ptr) (s.runner - s.char_ptr)
          ((List.range' s.runner n).map f)).map stored) ∧
      s1.char_frequency = add_all s.char_frequency
        (incs (f size) (rle_go (f s.char_ptr) (s.runner - s.char_ptr)
          ((List.range' s.runner n).map f))) := by
  intro n
  induction n with
  | zero =>
    intro s hle hsz
    have hr : s.runner = size := by omega
    refine ⟨compress_body f size s, ?_, ?_, ?_, ?_⟩
    · simp [compress_loop, compress_body, hr]
    · simp [compress_body, hr, rle_go]
    · simp only [compress_body, hr, true_or, if_true, List.range', List.map_nil, rle_go,
        List.map_cons, fill, append_to_zipped_chars]
      rw [stored_cast _ _ _ (by omega)]
    · simp only [compress_body, hr, true_or, if_true, List.range', List.map_nil, rle_go,
        incs, add_all, List.foldl_cons, List.foldl_nil]
      have hle2 : s.char_ptr ≤ size := hr ▸ hle
      rw [Int.ofNat_sub hle2]
  | succ n ih =>
    intro s hle hsz
    have hr : s.runner ≠ size := by omega
    by_cases hc : f s.char_ptr = f s.runner
    · have hb : compress_body f size s = s := by simp [compress_body, hr, hc]
      obtain ⟨s1, h1, h2, h3, h4⟩ := ih { s with runner := s.runner + 1 }
        (by simp; omega) (by simp; omega)
      refine ⟨s1, ?_, ?_, ?_, ?_⟩
      · rw [compress_loop]
        simp only [hb, hr, if_false]
        exact h1
      · rw [h2]
        simp only [List.range', List.map_cons, rle_go, hc, if_true]
        rw [show s.runner + 1 - s.char_ptr = s.runner - s.char_ptr + 1 by omega]
      · rw [h3]
        simp only [List.range', List.map_cons, rle_go, hc, if_true]
        rw [show s.runner + 1 - s.char_ptr = s.runner - s.char_ptr + 1 by omega]
      · rw [h4]
        simp only [List.range', List.map_cons, rle_go, hc, if_true]
        rw [show s.runner + 1 - s.char_ptr = s.runner - s.char_ptr + 1 by omega]
    · have hb : compress_body f size s =
          { char_ptr := s.runner, runner := s.runner,
            zipped_chars_index := s.zipped_chars_index + 1,
            zipped_chars := upd s.zipped_chars s.zipped_chars_index
              (stored (f s.char_ptr, s.runner - s.char_ptr)),
            char_frequency := increment_char_frequency s.char_frequency (f s.runner)
              ((s.runner - s.char_ptr : Nat) : Int) } := by
        simp only [compress_body, hr, hc, false_or, ne_eq, not_false_eq_true, if_true,
          append_to_zipped_chars]
        rw [stored_cast _ _ _ hle, Int.ofNat_sub hle]
      have hgo : rle_go (f s.char_ptr) (s.runner - s.char_ptr)
          ((List.range' s.runner (n + 1)).map f) =
          (f s.char_ptr, s.runner - s.char_ptr) ::
            rle_go (f s.runner) 1 ((List.range' (s.runner + 1) n).map f) := by
        simp only [List.range', List.map_cons, rle_go, Ne.symm hc, if_false]
      obtain ⟨s1, h1, h2, h3, h4⟩ := ih
        { char_ptr := s.runner, runner := s.runner + 1,
          zipped_chars_index := s.zipped_chars_index + 1,
          zipped_chars := upd s.zipped_chars s.zipped_chars_index
            (stored (f s.char_ptr, s.runner - s.char_ptr)),
          char_frequency := increment_char_frequency s.char_frequency (f s.runner)
            ((s.runner - s.char_ptr : Nat) : Int) }
        (by simp) (by simp; omega)
      simp only [Nat.add_sub_cancel_left] at h2 h3 h4
      refine ⟨s1, ?_, ?_, ?_, ?_⟩
      · rw [compress_loop]
        simp only [hb, hr, if_false]
        exact h1
      · rw [h2, hgo, List.length_cons]
        omega
      · rw [h3, hgo, List.map_cons, fill]
      · rw [h4, hgo, incs_cons]
        simp only [add_all, List.foldl_cons]

theorem emitted_eq (f : Nat → Int) (size : Nat) :
    emitted f size = (runs f size).map stored := rfl

theorem compress_spec (f : Nat → Int) (size : Nat) (cf : Int → Int) (order : Nat)
    (lengths : Nat → write_to_location) (z : Nat → zipped_char) :
    compress f size cf order lengths z =
      some (fill z 0 (emitted f size), add_all cf (incs (f size) (runs f size)),
        upd lengths order { lengths order with length := ((emitted f size).length : Int) }) := by
  obtain ⟨s1, h1, h2, h3, h4⟩ := compress_loop_spec f size size
    { char_ptr := 0, runner := 0, zipped_chars_index := 0, zipped_chars := z,
      char_frequency := cf } (by simp) (by simp)
  simp only [Nat.sub_zero, Nat.zero_add] at h2 h3 h4
  simp only [compress, h1, h3, h4, h2, emitted, runs, List.length_map]

theorem compress_phase_spec (K : Nat) (input : Nat → Int) (N : Nat)
    (heap : Nat → Nat → zipped_char) :
    ∀ (ws : List Nat) (sh : shared),
    ∃ sh1, compress_phase K input N heap ws sh = some sh1 ∧
      sh1.zipped_chars = sh.zipped_chars ∧
      (∀ i, (sh1.lengths i).start_index = (sh.lengths i).start_index) ∧
      (∀ i, i ∈ ws →
        (sh1.lengths i).length = ((worker_emitted K input N i).length : Int) ∧
        sh1.zipped_chars_local i = fill (heap i) 0 (worker_emitted K input N i)) ∧
      (∀ i, i ∉ ws →
        (sh1.lengths i).length = (sh.lengths i).length ∧
        sh1.zipped_chars_local i = sh.zipped_chars_local i) := by
  intro ws
  induction ws with
  | nil => intro sh; exact ⟨sh, rfl, rfl, fun _ => rfl, by simp, fun _ _ => ⟨rfl, rfl⟩⟩
  | cons w rest ih =>
    intro sh
    have hstep : thread_execution_compress input heap (create_args K 0 N w) sh =
        some { sh with
          lengths := upd sh.lengths w
            { sh.lengths w with length := ((worker_emitted K input N w).length : Int) }
          char_frequency := add_all sh.char_frequency
            (incs (worker_view K input N w (N / K)) (runs (worker_view K input N w) (N / K)))
          zipped_chars_local := upd sh.zipped_chars_local w
            (fill (heap w) 0 (worker_emitted K input N w)) } := by
      simp only [thread_execution_compress, compress_spec]
      rfl
    obtain ⟨sh1, h1, h2, h3, h4, h5⟩ := ih
      { sh with
          lengths := upd sh.lengths w
            { sh.lengths w with length := ((worker_emitted K input N w).length : Int) }
          char_frequency := add_all sh.char_frequency
            (incs (worker_view K input N w (N / K)) (runs (worker_view K input N w) (N / K)))
          zipped_chars_local := upd sh.zipped_chars_local w
            (fill (heap w) 0 (worker_emitted K input N w)) }
    refine ⟨sh1, ?_, ?_, ?_, ?_, ?_⟩
    · simp only [compress_phase, hstep]
      exact h1
    · rw [h2]
    · intro i
      rw [h3]
      by_cases hi : i = w
      · subst hi; simp [upd]
      · simp [upd, hi]
    · intro i hi
      by_cases hr : i ∈ rest
      · exact h4 i hr
      · have hw : i = w := by
          rcases List.mem_cons.mp hi with h | h
          · exact h
          · exact absurd h hr
        subst hw
        obtain ⟨a, b⟩ := h5 i hr
        exact ⟨by rw [a]; simp [upd], by rw [b]; simp [upd]⟩
    · intro i hi
      have hw : i ≠ w := fun h => hi (h ▸ List.mem_cons_self _ _)
      have hr : i ∉ rest := fun h => hi (List.mem_cons_of_mem _ h)
      obtain ⟨a, b⟩ := h5 i hr
      exact ⟨by rw [a]; simp [upd, hw], by rw [b]; simp [upd, hw]⟩

/-! ## The table of offsets -/

theorem prefix_len_succ (L : Nat → write_to_location) (i : Nat) :
    prefix_len L (i + 1) = prefix_len L i + (L i).length := by
  simp [prefix_len, List.range_succ]

theorem prefix_len_congr (L L1 : Nat → write_to_location) (i : Nat)
    (h : ∀ j, j < i → (L1 j).length = (L j).length) : prefix_len L1 i = prefix_len L i := by
  induction i with
  | zero => rfl
  | succ i ih =>
    rw [prefix_len_succ, prefix_len_succ, ih (fun j hj => h j (by omega)), h i (by omega)]

theorem malloc_lengths_fold (l : List Nat) : ∀ (t : Nat → write_to_location) (i : Nat),
    (l.foldl (fun t i => upd t i { t i with start_index := -1 }) t i).length = (t i).length ∧
    (i ∈ l → (l.foldl (fun t i => upd t i { t i with start_index := -1 }) t i).start_index
      = -1) ∧
    (i ∉ l → (l.foldl (fun t i => upd t i { t i with start_index := -1 }) t i).start_index
      = (t i).start_index) := by
  induction l with
  | nil => intro t i; simp
  | cons a rest ih =>
    intro t i
    obtain ⟨h1, h2, h3⟩ := ih (upd t a { t a with start_index := -1 }) i
    simp only [List.foldl_cons]
    refine ⟨?_, ?_, ?_⟩
    · rw [h1]
      by_cases hi : i = a
      · subst hi; simp [upd]
      · simp [upd, hi]
    · intro hi
      by_cases hr : i ∈ rest
      · exact h2 hr
      · have : i = a := by
          rcases List.mem_cons.mp hi with h | h
          · exact h
          · exact absurd h hr
        subst this
        rw [h3 hr]
        simp [upd]
    · intro hi
      have hw : i ≠ a := fun h => hi (h ▸ List.mem_cons_self _ _)
      have hr : i ∉ rest := fun h => hi (List.mem_cons_of_mem _ h)
      rw [h3 hr]
      simp [upd, hw]

theorem malloc_lengths_length (K : Nat) (temp : Nat → write_to_location) (i : Nat) :
    (malloc_lengths K temp i).length = (temp i).length := by
  rw [malloc_lengths, (malloc_lengths_fold _ _ i).1]
  by_cases hi : i = 0
  · subst hi; simp [upd]
  · simp [upd, hi]

theorem malloc_lengths_zero (K : Nat) (temp : Nat → write_to_location) :
    (malloc_lengths K temp 0).start_index = 0 := by
  rw [malloc_lengths, (malloc_lengths_fold _ _ 0).2.2 (by simp [List.mem_range'_1])]
  simp [upd]

theorem malloc_lengths_pos (K : Nat) (temp : Nat → write_to_location) (i : Nat)
    (h0 : 0 < i) (hK : i < K) : (malloc_lengths K temp i).start_index = -1 := by
  rw [malloc_lengths, (malloc_lengths_fold _ _ i).2.1 (by rw [List.mem_range'_1]; omega)]

theorem malloc_lengths_ok (K : Nat) (temp : Nat → write_to_location) :
    offsets_ok K (malloc_lengths K temp) := by
  refine ⟨malloc_lengths_zero K temp, fun i hi => ?_⟩
  by_cases h0 : i = 0
  · subst h0
    right
    rw [malloc_lengths_zero]
    rfl
  · left
    exact malloc_lengths_pos K temp i (by omega) hi

/-- What one call of `calc_starting_index` does to the table. -/
theorem calc_starting_index_spec (L : Nat → write_to_location)
    (h0 : (L 0).start_index = 0) : ∀ (order : Nat),
    (∀ i, i ≤ order → (L i).start_index = -1 ∨ (L i).start_index = prefix_len L i) →
    (calc_starting_index L order).2 = prefix_len L (order + 1) ∧
    (∀ i, ((calc_starting_index L order).1 i).length = (L i).length) ∧
    (∀ i, ((calc_starting_index L order).1 i).start_index = (L i).start_index ∨
      (i ≤ order ∧ ((calc_starting_index L order).1 i).start_index = prefix_len L i)) ∧
    ((calc_starting_index L order).1 order).start_index = prefix_len L order := by
  intro order
  induction order with
  | zero =>
    intro _
    refine ⟨?_, fun _ => rfl, fun _ => Or.inl rfl, ?_⟩
    · rw [prefix_len_succ]
      simp [calc_starting_index, prefix_len, h0]
    · simp [calc_starting_index, prefix_len, h0]
  | succ o ih =>
    intro hinv
    by_cases hs : (L (o + 1)).start_index = -1
    · obtain ⟨r1, r2, r3, _⟩ := ih (fun i hi => hinv i (by omega))
      have hcalc : calc_starting_index L (o + 1) =
          (upd (calc_starting_index L o).1 (o + 1)
            { (calc_starting_index L o).1 (o + 1) with
              start_index := (calc_starting_index L o).2 },
           (calc_starting_index L o).2 + ((calc_starting_index L o).1 (o + 1)).length) := by
        rw [calc_starting_index]
        simp [hs, upd]
      rw [hcalc]
      refine ⟨?_, ?_, ?_, ?_⟩
      · simp only [r1, r2]
        rw [prefix_len_succ L (o + 1)]
      · intro i
        by_cases hi : i = o + 1
        · subst hi; simp [upd, r2]
        · simp [upd, hi, r2]
      · intro i
        by_cases hi : i = o + 1
        · subst hi
          right
          simp [upd, r1]
        · rcases r3 i with h | ⟨h, h'⟩
          · left; simp [upd, hi, h]
          · right; exact ⟨by omega, by simp [upd, hi, h']⟩
      · simp [upd, r1]
    · have hcalc : calc_starting_index L (o + 1) =
          (L, (L (o + 1)).length + (L (o + 1)).start_index) := by
        rw [calc_starting_index]
        simp [hs]
      rw [hcalc]
      have hp : (L (o + 1)).start_index = prefix_len L (o + 1) := by
        rcases hinv (o + 1) (le_refl _) with h | h
        · exact absurd h hs
        · exact h
      refine ⟨?_, fun _ => rfl, fun _ => Or.inl rfl, hp⟩
      simp only []
      rw [prefix_len_succ L (o + 1), hp]
      ring

/-! ## The copy into the output array -/

/-- The copy loop of `write_to_zipped_chars` (pzip.c, 98-101), cell by cell. -/
theorem copy_spec (loc : Nat → zipped_char) (s : Int) (n : Nat) (g : Int → zipped_char)
    (idx : Int) :
    (List.range n).foldl
      (fun (g : Int → zipped_char) (i : Nat) => upd g ((i : Int) + s)
        { character := (loc i).character, occurence := (loc i).occurence }) g idx =
      if s ≤ idx ∧ idx < s + n then loc (idx - s).toNat else g idx := by
  induction n with
  | zero =>
    have : ¬ (s ≤ idx ∧ idx < s + ((0 : Nat) : Int)) := by omega
    simp only [List.range_zero, List.foldl_nil, this, if_false]
  | succ n ih =>
    rw [List.range_succ, List.foldl_append, List.foldl_cons, List.foldl_nil]
    by_cases h : idx = (n : Int) + s
    · have h1 : s ≤ idx ∧ idx < s + ((n + 1 : Nat) : Int) := by omega
      have h2 : (idx - s).toNat = n := by omega
      simp only [upd, h, if_true]
      rw [← h, if_pos h1, h2]
    · rw [upd_other _ _ _ _ h, ih]
      by_cases h1 : s ≤ idx ∧ idx < s + (n : Int)
      · have h2 : s ≤ idx ∧ idx < s + ((n + 1 : Nat) : Int) := by omega
        rw [if_pos h1, if_pos h2]
      · have h2 : ¬ (s ≤ idx ∧ idx < s + ((n + 1 : Nat) : Int)) := by omega
        rw [if_neg h1, if_neg h2]

/-- The offset resolution of `write_to_zipped_chars` (pzip.c, 89-94). -/
theorem write_to_zipped_chars_lengths (K : Nat) (g : Int → zipped_char)
    (loc : Nat → zipped_char) (w : Nat) (L : Nat → write_to_location)
    (hok : offsets_ok K L) (hw : w < K) :
    (∀ i, ((write_to_zipped_chars g loc w L).2 i).length = (L i).length) ∧
    offsets_ok K (write_to_zipped_chars g loc w L).2 ∧
    (∀ i, i < K → (L i).start_index = prefix_len L i →
      ((write_to_zipped_chars g loc w L).2 i).start_index = prefix_len L i) ∧
    ((write_to_zipped_chars g loc w L).2 w).start_index = prefix_len L w := by
  by_cases hs : (L w).start_index = -1
  · have h2 : (write_to_zipped_chars g loc w L).2 = (calc_starting_index L w).1 := by
      simp [write_to_zipped_chars, hs]
    obtain ⟨_, r2, r3, r4⟩ := calc_starting_index_spec L hok.1 w
      (fun i hi => hok.2 i (by omega))
    rw [h2]
    have hpre : ∀ i, prefix_len (calc_starting_index L w).1 i = prefix_len L i :=
      fun i => prefix_len_congr _ _ i (fun j _ => r2 j)
    refine ⟨r2, ⟨?_, ?_⟩, ?_, r4⟩
    · rcases r3 0 with h | ⟨_, h⟩
      · rw [h, hok.1]
      · rw [h]; rfl
    · intro i hi
      rw [hpre]
      rcases r3 i with h | ⟨_, h⟩
      · rw [h]; exact hok.2 i hi
      · right; exact h
    · intro i _ hres
      rcases r3 i with h | ⟨_, h⟩
      · rw [h, hres]
      · exact h
  · have h2 : (write_to_zipped_chars g loc w L).2 = L := by
      simp [write_to_zipped_chars, hs]
    rw [h2]
    refine ⟨fun _ => rfl, hok, fun _ _ h => h, ?_⟩
    rcases hok.2 w hw with h | h
    · exact absurd h hs
    · exact h

/-- The copy of `write_to_zipped_chars` (pzip.c, 96-101), cell by cell. -/
theorem write_to_zipped_chars_cells (K : Nat) (g : Int → zipped_char)
    (loc : Nat → zipped_char) (w : Nat) (L : Nat → write_to_location)
    (hok : offsets_ok K L) (hw : w < K) (idx : Int) :
    (write_to_zipped_chars g loc w L).1 idx =
      if prefix_len L w ≤ idx ∧ idx < prefix_len L w + ((L w).length.toNat : Int)
      then loc (idx - prefix_len L w).toNat else g idx := by
  obtain ⟨r1, _, _, r4⟩ := write_to_zipped_chars_lengths K g loc w L hok hw
  have e : (write_to_zipped_chars g loc w L).1 =
      (List.range ((write_to_zipped_chars g loc w L).2 w).length.toNat).foldl
        (fun (g1 : Int → zipped_char) (i : Nat) =>
          upd g1 ((i : Int) + ((write_to_zipped_chars g loc w L).2 w).start_index)
            { character := (loc i).character, occurence := (loc i).occurence }) g := rfl
  rw [e, copy_spec, r4, r1]

theorem prefix_len_mono (K : Nat) (L : Nat → write_to_location)
    (hpos : ∀ i, i < K → 0 ≤ (L i).length) (a : Nat) :
    ∀ b, a ≤ b → b ≤ K → prefix_len L a ≤ prefix_len L b := by
  intro b
  induction b with
  | zero =>
    intro h _
    have : a = 0 := by omega
    rw [this]
  | succ b ih =>
    intro h hb
    by_cases e : a = b + 1
    · rw [e]
    · have := ih (by omega) (by omega)
      have := hpos b (by omega)
      rw [prefix_len_succ]
      omega

theorem write_phase_lengths (K N : Nat) : ∀ (ws : List Nat) (sh : shared),
    offsets_ok K sh.lengths → (∀ w, w ∈ ws → w < K) →
    (∀ i, ((write_phase K N ws sh).lengths i).length = (sh.lengths i).length) ∧
    offsets_ok K (write_phase K N ws sh).lengths ∧
    (∀ i, i < K → (sh.lengths i).start_index = prefix_len sh.lengths i →
      ((write_phase K N ws sh).lengths i).start_index = prefix_len sh.lengths i) ∧
    (∀ i, i ∈ ws →
      ((write_phase K N ws sh).lengths i).start_index = prefix_len sh.lengths i) ∧
    (write_phase K N ws sh).zipped_chars_local = sh.zipped_chars_local ∧
    (write_phase K N ws sh).char_frequency = sh.char_frequency := by
  intro ws
  induction ws with
  | nil =>
    intro sh hok _
    exact ⟨fun _ => rfl, hok, fun _ _ h => h, by simp, rfl, rfl⟩
  | cons w rest ih =>
    intro sh hok hws
    have hw : w < K := hws w (List.mem_cons_self _ _)
    obtain ⟨a1, a2, a3, a4⟩ := write_to_zipped_chars_lengths K sh.zipped_chars
      (sh.zipped_chars_local w) w sh.lengths hok hw
    have hpre : ∀ i, prefix_len (thread_execution_write (create_args K 0 N w) sh).lengths i
        = prefix_len sh.lengths i := fun i => prefix_len_congr _ _ i (fun j _ => a1 j)
    obtain ⟨b1, b2, b3, b4, b5, b6⟩ := ih (thread_execution_write (create_args K 0 N w) sh)
      a2 (fun v hv => hws v (List.mem_cons_of_mem _ hv))
    simp only [write_phase]
    refine ⟨?_, b2, ?_, ?_, ?_, ?_⟩
    · intro i
      rw [b1 i]
      exact a1 i
    · intro i hi hres
      rw [← hpre i]
      apply b3 i hi
      rw [hpre i]
      exact a3 i hi hres
    · intro i hi
      by_cases hr : i ∈ rest
      · rw [b4 i hr, hpre]
      · have e : i = w := by
          rcases List.mem_cons.mp hi with h | h
          · exact h
          · exact absurd h hr
        subst e
        rw [← hpre i]
        apply b3 i hw
        rw [hpre i]
        exact a4
    · rw [b5]; rfl
    · rw [b6]; rfl

theorem write_phase_cells (K N : Nat) : ∀ (ws : List Nat) (sh : shared),
    offsets_ok K sh.lengths → (∀ w, w ∈ ws → w < K) →
    (∀ i, i < K → 0 ≤ (sh.lengths i).length) →
    (∀ i, i ∈ ws → ∀ j : Nat, (j : Int) < (sh.lengths i).length →
      (write_phase K N ws sh).zipped_chars (prefix_len sh.lengths i + j)
        = sh.zipped_chars_local i j) ∧
    (∀ idx : Int,
      (∀ i, i ∈ ws → ¬ (prefix_len sh.lengths i ≤ idx ∧
        idx < prefix_len sh.lengths i + (sh.lengths i).length)) →
      (write_phase K N ws sh).zipped_chars idx = sh.zipped_chars idx) := by
  intro ws
  induction ws with
  | nil =>
    intro sh _ _ _
    exact ⟨by simp, fun _ _ => rfl⟩
  | cons w rest ih =>
    intro sh hok hws hpos
    have hw : w < K := hws w (List.mem_cons_self _ _)
    obtain ⟨a1, a2, _, _⟩ := write_to_zipped_chars_lengths K sh.zipped_chars
      (sh.zipped_chars_local w) w sh.lengths hok hw
    have hcell := write_to_zipped_chars_cells K sh.zipped_chars
      (sh.zipped_chars_local w) w sh.lengths hok hw
    have hpre : ∀ i, prefix_len (thread_execution_write (create_args K 0 N w) sh).lengths i
        = prefix_len sh.lengths i := fun i => prefix_len_congr _ _ i (fun j _ => a1 j)
    have hlen : ∀ i, ((thread_execution_write (create_args K 0 N w) sh).lengths i).length
        = (sh.lengths i).length := a1
    have hloc : (thread_execution_write (create_args K 0 N w) sh).zipped_chars_local
        = sh.zipped_chars_local := rfl
    have hz : ∀ idx, (thread_execution_write (create_args K 0 N w) sh).zipped_chars idx =
        if prefix_len sh.lengths w ≤ idx ∧
          idx < prefix_len sh.lengths w + ((sh.lengths w).length.toNat : Int)
        then sh.zipped_chars_local w (idx - prefix_len sh.lengths w).toNat
        else sh.zipped_chars idx := hcell
    have hposw := hpos w hw
    obtain ⟨b1, b2⟩ := ih (thread_execution_write (create_args K 0 N w) sh)
      a2 (fun v hv => hws v (List.mem_cons_of_mem _ hv))
      (fun i hi => by rw [hlen]; exact hpos i hi)
    simp only [write_phase]
    constructor
    · intro i hi j hj
      by_cases hr : i ∈ rest
      · have := b1 i hr j (by rw [hlen]; exact hj)
        rw [hpre, hloc] at this
        exact this
      · have e : i = w := by
          rcases List.mem_cons.mp hi with h | h
          · exact h
          · exact absurd h hr
        subst e
        rw [b2, hz]
        · have c : prefix_len sh.lengths i ≤ prefix_len sh.lengths i + (j : Int) ∧
              prefix_len sh.lengths i + (j : Int) <
                prefix_len sh.lengths i + ((sh.lengths i).length.toNat : Int) := by omega
          rw [if_pos c]
          congr 1
          omega
        · intro v hv
          rw [hpre, hlen]
          have hvK : v < K := hws v (List.mem_cons_of_mem _ hv)
          have hne : v ≠ i := fun h => hr (h ▸ hv)
          rcases Nat.lt_or_gt_of_ne hne with hlt | hgt
          · have := prefix_len_mono K sh.lengths hpos (v + 1) i (by omega) (by omega)
            rw [prefix_len_succ] at this
            omega
          · have := prefix_len_mono K sh.lengths hpos (i + 1) v (by omega) (by omega)
            rw [prefix_len_succ] at this
            omega
    · intro idx hidx
      rw [b2, hz]
      · have c : ¬ (prefix_len sh.lengths w ≤ idx ∧
            idx < prefix_len sh.lengths w + ((sh.lengths w).length.toNat : Int)) := by
          have := hidx w (List.mem_cons_self _ _)
          omega
        rw [if_neg c]
      · intro v hv
        rw [hpre, hlen]
        exact hidx v (List.mem_cons_of_mem _ hv)

/-! ## The whole run -/

theorem worker_offset_succ (K : Nat) (input : Nat → Int) (N i : Nat) :
    worker_offset K input N (i + 1) =
      worker_offset K input N i + (worker_emitted K input N i).length := by
  simp [worker_offset, List.range_succ]

theorem prefix_len_eq_offset (K : Nat) (input : Nat → Int) (N : Nat)
    (L : Nat → write_to_location)
    (h : ∀ i, i < K → (L i).length = ((worker_emitted K input N i).length : Int)) :
    ∀ i, i ≤ K → prefix_len L i = (worker_offset K input N i : Int) := by
  intro i
  induction i with
  | zero => intro _; rfl
  | succ i ih =>
    intro hi
    rw [prefix_len_succ, worker_offset_succ, ih (by omega), h i (by omega)]
    push_cast
    rfl

theorem flatten_blocks (K : Nat) (input : Nat → Int) (N : Nat) (g : Nat → zipped_char)
    (hg : ∀ i, i < K → ∀ (j : Nat) (h : j < (worker_emitted K input N i).length),
      g (worker_offset K input N i + j) = (worker_emitted K input N i).get ⟨j, h⟩) :
    ∀ k, k ≤ K → (List.range (worker_offset K input N k)).map g =
      ((List.range k).map (worker_emitted K input N)).flatten := by
  intro k
  induction k with
  | zero => intro _; rfl
  | succ k ih =>
    intro hk
    rw [worker_offset_succ, List.range_add, List.map_append, ih (by omega), List.range_succ,
      List.map_append, List.flatten_append]
    congr 1
    simp only [List.map_map, List.map_cons, List.map_nil, List.flatten_cons, List.flatten_nil,
      List.append_nil]
    apply List.ext_get
    · simp
    · intro n h1 h2
      simp only [List.get_eq_getElem, List.getElem_map, List.getElem_range, Function.comp]
      have := hg k (by omega) n h2
      simpa using this

/-- The run of `pzip` in full: the table, the local arrays, the count and the
cells of the output array, for any schedules that run every worker once. -/
theorem pzip_spec (K : Nat) (input : Nat → Int) (N : Nat) (z : Int → zipped_char)
    (cf : Int → Int) (env : run_env) (hK : 1 ≤ K)
    (hc : env.compress_order.Perm (List.range K))
    (hw : env.write_order.Perm (List.range K)) :
    ∃ r, pzip K input N z cf env = some r ∧
      (∀ i, i < K →
        (r.final.lengths i).length = ((worker_emitted K input N i).length : Int)) ∧
      (∀ i, i < K →
        (r.final.lengths i).start_index = (worker_offset K input N i : Int)) ∧
      (∀ i, i < K → worker_output r.final i = worker_emitted K input N i) ∧
      r.zipped_chars_count = (worker_offset K input N K : Int) ∧
      zipped_output r = ((List.range K).map (worker_emitted K input N)).flatten ∧
      (∀ idx : Int, idx < 0 ∨ (worker_offset K input N K : Int) ≤ idx →
        r.zipped_chars idx = z idx) ∧
      (∀ i, i < K → ∀ j : Nat, j < (worker_emitted K input N i).length →
        r.zipped_chars ((worker_offset K input N i : Int) + (j : Int))
          = r.final.zipped_chars_local i j) := by
  have memc : ∀ i, i ∈ env.compress_order ↔ i < K := fun i => by
    rw [hc.mem_iff, List.mem_range]
  have memw : ∀ i, i ∈ env.write_order ↔ i < K := fun i => by
    rw [hw.mem_iff, List.mem_range]
  obtain ⟨sh1, p1, p2, p3, p4, _⟩ := compress_phase_spec K input N env.heap
    env.compress_order
    { lengths := malloc_lengths K env.temp, char_frequency := cf,
      zipped_chars := z, zipped_chars_local := env.heap }
  have hlen1 : ∀ i, i < K →
      (sh1.lengths i).length = ((worker_emitted K input N i).length : Int) :=
    fun i hi => (p4 i ((memc i).2 hi)).1
  have hloc1 : ∀ i, i < K →
      sh1.zipped_chars_local i = fill (env.heap i) 0 (worker_emitted K input N i) :=
    fun i hi => (p4 i ((memc i).2 hi)).2
  have hok1 : offsets_ok K sh1.lengths := by
    have hm := malloc_lengths_ok K env.temp
    refine ⟨by rw [p3]; exact malloc_lengths_zero K env.temp, fun i hi => ?_⟩
    by_cases h0 : i = 0
    · subst h0
      right
      rw [p3]
      exact malloc_lengths_zero K env.temp
    · left
      rw [p3]
      exact malloc_lengths_pos K env.temp i (by omega) hi
  have hpos1 : ∀ i, i < K → 0 ≤ (sh1.lengths i).length := fun i hi => by
    rw [hlen1 i hi]; exact Int.ofNat_nonneg _
  have hpre1 := prefix_len_eq_offset K input N sh1.lengths hlen1
  obtain ⟨q1, _, _, q4, q5, _⟩ := write_phase_lengths K N env.write_order sh1 hok1
    (fun w hw' => (memw w).1 hw')
  obtain ⟨c1, c2⟩ := write_phase_cells K N env.write_order sh1 hok1
    (fun w hw' => (memw w).1 hw') hpos1
  have hrun : pzip K input N z cf env = some
      { zipped_chars := (write_phase K N env.write_order sh1).zipped_chars
        zipped_chars_count :=
          ((write_phase K N env.write_order sh1).lengths (K - 1)).length +
            ((write_phase K N env.write_order sh1).lengths (K - 1)).start_index
        char_frequency := (write_phase K N env.write_order sh1).char_frequency
        final := write_phase K N env.write_order sh1 } := by
    simp only [pzip, create_threads, p1]
  have hlen2 : ∀ i, i < K → ((write_phase K N env.write_order sh1).lengths i).length
      = ((worker_emitted K input N i).length : Int) := fun i hi => by
    rw [q1 i, hlen1 i hi]
  have hst2 : ∀ i, i < K → ((write_phase K N env.write_order sh1).lengths i).start_index
      = (worker_offset K input N i : Int) := fun i hi => by
    rw [q4 i ((memw i).2 hi), hpre1 i (by omega)]
  have hcount : ((write_phase K N env.write_order sh1).lengths (K - 1)).length +
      ((write_phase K N env.write_order sh1).lengths (K - 1)).start_index
      = (worker_offset K input N K : Int) := by
    rw [hlen2 (K - 1) (by omega), hst2 (K - 1) (by omega)]
    have : worker_offset K input N K = worker_offset K input N (K - 1) +
        (worker_emitted K input N (K - 1)).length := by
      rw [← worker_offset_succ]
      congr 1
      omega
    rw [this]
    push_cast
    ring
  have hcell : ∀ i, i < K → ∀ (j : Nat) (h : j < (worker_emitted K input N i).length),
      (write_phase K N env.write_order sh1).zipped_chars
        (((worker_offset K input N i + j : Nat)) : Int)
        = (worker_emitted K input N i).get ⟨j, h⟩ := by
    intro i hi j h
    have := c1 i ((memw i).2 hi) j (by rw [hlen1 i hi]; exact_mod_cast h)
    rw [hpre1 i (by omega), hloc1 i hi] at this
    have e := fill_at (worker_emitted K input N i) (env.heap i) 0 j h
    rw [Nat.zero_add] at e
    rw [← e, ← this]
    push_cast
    rfl
  refine ⟨_, hrun, hlen2, hst2, ?_, hcount, ?_, ?_, ?_⟩
  · intro i hi
    simp only [worker_output]
    rw [hlen2 i hi, q5, hloc1 i hi, Int.toNat_ofNat]
    exact map_fill _ _
  · simp only [zipped_output]
    rw [hcount, Int.toNat_ofNat]
    exact flatten_blocks K input N
      (fun i => (write_phase K N env.write_order sh1).zipped_chars (i : Int)) hcell K
      (le_refl K)
  · intro idx hidx
    simp only []
    rw [c2 idx, p2]
    intro i hi
    have hiK := (memw i).1 hi
    rw [hpre1 i (by omega), hlen1 i hiK]
    have h1 : worker_offset K input N (i + 1) ≤ worker_offset K input N K := by
      have := prefix_len_mono K sh1.lengths hpos1 (i + 1) K (by omega) (le_refl K)
      rw [hpre1 (i + 1) (by omega), hpre1 K (le_refl K)] at this
      exact_mod_cast this
    rw [worker_offset_succ] at h1
    omega
  · intro i hi j hj
    have := c1 i ((memw i).2 hi) j (by rw [hlen1 i hi]; exact_mod_cast hj)
    rw [hpre1 i (by omega)] at this
    simp only []
    rw [this, q5]

/-! ## The reference encoder -/

theorem expand_rle_go (xs : List Int) : ∀ (c : Int) (n : Nat),
    expand (rle_go c n xs) = List.replicate n c ++ xs := by
  induction xs with
  | nil => intro c n; simp [rle_go, expand]
  | cons x xs ih =>
    intro c n
    by_cases h : x = c
    · subst h
      simp only [rle_go, if_true, ih, List.replicate_succ']
      simp
    · simp only [rle_go, h, if_false, expand, ih]
      simp

theorem expand_rle (xs : List Int) : expand (rle xs) = xs := by
  cases xs with
  | nil => rfl
  | cons x xs => simp [rle, expand_rle_go]

theorem rle_go_pos (xs : List Int) : ∀ (c : Int) (n : Nat), 1 ≤ n →
    ∀ p, p ∈ rle_go c n xs → 1 ≤ p.2 := by
  induction xs with
  | nil =>
    intro c n hn p hp
    simp only [rle_go, List.mem_singleton] at hp
    rw [hp]; exact hn
  | cons x xs ih =>
    intro c n hn p hp
    by_cases h : x = c
    · simp only [rle_go, h, if_true] at hp
      exact ih c (n + 1) (by omega) p hp
    · simp only [rle_go, h, if_false, List.mem_cons] at hp
      rcases hp with hp | hp
      · rw [hp]; exact hn
      · exact ih x 1 (le_refl 1) p hp

theorem rle_pos (xs : List Int) : ∀ p, p ∈ rle xs → 1 ≤ p.2 := by
  cases xs with
  | nil => intro p hp; simp [rle] at hp
  | cons x xs => exact rle_go_pos xs x 1 (le_refl 1)

theorem rle_go_replicate (c : Int) (E : List Int) : ∀ (m n : Nat),
    rle_go c n (List.replicate m c ++ E) = rle_go c (n + m) E := by
  intro m
  induction m with
  | zero => intro n; simp
  | succ m ih =>
    intro n
    have e : rle_go c n (List.replicate (m + 1) c ++ E)
        = rle_go c (n + 1) (List.replicate m c ++ E) := by
      simp [List.replicate_succ, rle_go]
    rw [e, ih, show n + 1 + m = n + (m + 1) by omega]

theorem rle_go_expand (ps : List (Int × Nat)) (hp : ∀ p, p ∈ ps → 1 ≤ p.2) :
    ∀ (c : Int) (n : Nat), rle_go c n (expand ps) = coalesce_go c n ps := by
  induction ps with
  | nil => intro c n; rfl
  | cons p ps ih =>
    intro c n
    have ih1 := ih (fun q hq => hp q (List.mem_cons_of_mem _ hq))
    have h1 : 1 ≤ p.2 := hp p (List.mem_cons_self _ _)
    by_cases h : p.1 = c
    · simp only [expand, coalesce_go, h, if_true, rle_go_replicate, ih1]
    · obtain ⟨m, hm⟩ : ∃ m, p.2 = m + 1 := ⟨p.2 - 1, by omega⟩
      simp only [expand, coalesce_go, h, if_false, hm, List.replicate_succ, List.cons_append,
        rle_go, rle_go_replicate, ih1]
      rw [Nat.add_comm 1 m]

theorem rle_expand (ps : List (Int × Nat)) (hp : ∀ p, p ∈ ps → 1 ≤ p.2) :
    rle (expand ps) = coalesce ps := by
  cases ps with
  | nil => rfl
  | cons p ps =>
    have h1 : 1 ≤ p.2 := hp p (List.mem_cons_self _ _)
    obtain ⟨m, hm⟩ : ∃ m, p.2 = m + 1 := ⟨p.2 - 1, by omega⟩
    simp only [expand, coalesce, hm, List.replicate_succ, List.cons_append, rle,
      rle_go_replicate]
    rw [rle_go_expand ps (fun q hq => hp q (List.mem_cons_of_mem _ hq)), Nat.add_comm 1 m]

theorem expand_append (a b : List (Int × Nat)) : expand (a ++ b) = expand a ++ expand b := by
  induction a with
  | nil => rfl
  | cons p ps ih => simp [expand, ih]

theorem expand_flatten_rle (ls : List (List Int)) :
    expand ((ls.map rle).flatten) = ls.flatten := by
  induction ls with
  | nil => rfl
  | cons l ls ih => simp [expand_append, expand_rle, ih]

/-- Encoding the pieces of a list one by one and merging adjacent pairs of the
same character gives the encoding of the whole list. -/
theorem coalesce_flatten_rle (ls : List (List Int)) :
    coalesce ((ls.map rle).flatten) = rle ls.flatten := by
  rw [← rle_expand, expand_flatten_rle]
  intro p hp
  simp only [List.mem_flatten, List.mem_map] at hp
  obtain ⟨l, ⟨xs, _, rfl⟩, hl⟩ := hp
  exact rle_pos xs p hl

theorem runs_pos (f : Nat → Int) (size : Nat) (h : 0 < size) :
    runs f size = rle ((List.range size).map f) := by
  obtain ⟨n, rfl⟩ : ∃ n, size = n + 1 := ⟨size - 1, by omega⟩
  rw [List.range_eq_range']
  simp [runs, List.range', rle, rle_go]

theorem runs_zero (f : Nat → Int) : runs f 0 = [(f 0, 0)] := rfl

theorem pairs_stored (l : List (Int × Nat)) (h : ∀ p, p ∈ l → p.2 < 256) :
    pairs (l.map stored) = l := by
  induction l with
  | nil => rfl
  | cons p ps ih =>
    have h1 := h p (List.mem_cons_self _ _)
    simp only [pairs, List.map_cons, stored, List.map_map] at *
    rw [ih (fun q hq => h q (List.mem_cons_of_mem _ hq)), Nat.mod_eq_of_lt h1]

theorem worker_view_eq (K : Nat) (input : Nat → Int) (N i : Nat) :
    (List.range (N / K)).map (worker_view K input N i) = slice input (i * (N / K)) (N / K) := by
  simp [worker_view, slice, create_args]

theorem slices_flatten (input : Nat → Int) (size : Nat) : ∀ K : Nat,
    ((List.range K).map (fun i => slice input (i * size) size)).flatten
      = slice input 0 (K * size) := by
  intro K
  induction K with
  | zero => simp [slice]
  | succ K ih =>
    rw [List.range_succ, List.map_append, List.flatten_append, ih]
    simp only [List.map_cons, List.map_nil, List.flatten_cons, List.flatten_nil,
      List.append_nil, slice]
    rw [show (K + 1) * size = K * size + size by ring, List.range_add, List.map_append,
      List.map_map]
    simp [Function.comp]

theorem worker_emitted_pos (K : Nat) (input : Nat → Int) (N i : Nat) (h : 0 < N / K) :
    worker_emitted K input N i = (rle (slice input (i * (N / K)) (N / K))).map stored := by
  rw [worker_emitted, emitted_eq, runs_pos _ _ h, worker_view_eq]

theorem pairs_flatten (ls : List (List zipped_char)) :
    pairs ls.flatten = (ls.map pairs).flatten := by
  induction ls with
  | nil => rfl
  | cons l ls ih =>
    simp only [List.flatten_cons, List.map_cons]
    rw [← ih]
    simp [pairs]

theorem worker_offset_mono (K : Nat) (input : Nat → Int) (N : Nat) (a : Nat) :
    ∀ b, a ≤ b → worker_offset K input N a ≤ worker_offset K input N b := by
  intro b
  induction b with
  | zero =>
    intro h
    have : a = 0 := by omega
    rw [this]
  | succ b ih =>
    intro h
    by_cases e : a = b + 1
    · rw [e]
    · have := ih (by omega)
      rw [worker_offset_succ]
      omega

theorem worker_offset_locate (K : Nat) (input : Nat → Int) (N : Nat) :
    ∀ k (idx : Nat), idx < worker_offset K input N k →
      ∃ i, i < k ∧ worker_offset K input N i ≤ idx ∧
        idx < worker_offset K input N i + (worker_emitted K input N i).length := by
  intro k
  induction k with
  | zero => intro idx h; simp [worker_offset] at h
  | succ k ih =>
    intro idx h
    by_cases hlt : idx < worker_offset K input N k
    · obtain ⟨i, hi, h1, h2⟩ := ih idx hlt
      exact ⟨i, by omega, h1, h2⟩
    · rw [worker_offset_succ] at h
      exact ⟨k, by omega, by omega, h⟩

theorem slice_zero (f : Nat → Int) (size : Nat) :
    slice f 0 size = (List.range size).map f := by
  simp [slice]

/-! ## The claims -/

/-- C1, as amended: for a worker count `K` with `1 ≤ K ≤ N` that divides the
input length `N`, the pairs in `zipped_chars[0 .. zipped_chars_count)` are the
concatenation, in slice order, of the workers' outputs, and these are the
single-threaded run-length encodings of the slices, one after the other, with
every count stored modulo 256.  When no slice contains a run longer than 255 the
counts are the run lengths, and merging adjacent pairs of the same character
(the runs cut at a slice boundary) gives the single-threaded run-length encoding
of the whole input.  This holds for every schedule that runs each worker once
and for all characters, lowercase or not. -/
theorem pzip_output_eq_rle_of_dvd (K N : Nat) (input : Nat → Int)
    (z : Int → zipped_char) (cf : Int → Int) (env : run_env)
    (hK : 1 ≤ K) (hKN : K ≤ N) (hdvd : K ∣ N)
    (hc : env.compress_order.Perm (List.range K))
    (hw : env.write_order.Perm (List.range K)) :
    ∃ r, pzip K input N z cf env = some r ∧
      zipped_output r = ((List.range K).map (worker_output r.final)).flatten ∧
      zipped_output r =
        ((List.range K).map (fun i =>
          (rle (slice input (i * (N / K)) (N / K))).map
            (fun p => { character := p.1, occurence := p.2 % 256 }))).flatten ∧
      ((∀ i, i < K → ∀ p, p ∈ rle (slice input (i * (N / K)) (N / K)) → p.2 ≤ 255) →
        pairs (zipped_output r) =
          ((List.range K).map (fun i => rle (slice input (i * (N / K)) (N / K)))).flatten ∧
        coalesce (pairs (zipped_output r)) = rle (slice input 0 N)) := by
  obtain ⟨r, h1, _, _, h4, _, h6, _, _⟩ := pzip_spec K input N z cf env hK hc hw
  have hsize : 0 < N / K := Nat.div_pos hKN hK
  refine ⟨r, h1, ?_, ?_, ?_⟩
  · rw [h6]
    congr 1
    apply List.map_congr_left
    intro i hi
    exact (h4 i (List.mem_range.mp hi)).symm
  · rw [h6]
    congr 1
    apply List.map_congr_left
    intro i _
    exact worker_emitted_pos K input N i hsize
  · intro hrun
    have hp : pairs (zipped_output r) =
        ((List.range K).map (fun i => rle (slice input (i * (N / K)) (N / K)))).flatten := by
      rw [h6, pairs_flatten, List.map_map]
      congr 1
      apply List.map_congr_left
      intro i hi
      simp only [Function.comp, worker_emitted_pos K input N i hsize]
      exact pairs_stored _ (fun p hp => by
        have := hrun i (List.mem_range.mp hi) p hp
        omega)
    refine ⟨hp, ?_⟩
    rw [hp]
    have := coalesce_flatten_rle
      ((List.range K).map (fun i => slice input (i * (N / K)) (N / K)))
    rw [List.map_map] at this
    rw [slices_flatten, Nat.mul_div_cancel' hdvd] at this
    exact this

/-- Witness for C1 as amended: the input "aabbbc" with two workers; the run of
"b" is cut at the slice boundary and the output is [(a,2),(b,1),(b,2),(c,1)]. -/
theorem pzip_output_eq_rle_of_dvd_witness :
    (2 ∣ 6) ∧
    ∃ r, pzip 2 (c_string [97, 97, 98, 98, 98, 99]) 6 (fun _ => ⟨0, 0⟩) (fun _ => 0) (env0 2)
        = some r ∧
      zipped_output r = ((List.range 2).map (worker_output r.final)).flatten ∧
      zipped_output r =
        ((List.range 2).map (fun i =>
          (rle (slice (c_string [97, 97, 98, 98, 98, 99]) (i * (6 / 2)) (6 / 2))).map
            (fun p => { character := p.1, occurence := p.2 % 256 }))).flatten ∧
      ((∀ i, i < 2 → ∀ p,
          p ∈ rle (slice (c_string [97, 97, 98, 98, 98, 99]) (i * (6 / 2)) (6 / 2)) →
          p.2 ≤ 255) →
        pairs (zipped_output r) =
          ((List.range 2).map
            (fun i => rle (slice (c_string [97, 97, 98, 98, 98, 99]) (i * (6 / 2))
              (6 / 2)))).flatten ∧
        coalesce (pairs (zipped_output r))
          = rle (slice (c_string [97, 97, 98, 98, 98, 99]) 0 6)) :=
  ⟨by decide,
    pzip_output_eq_rle_of_dvd 2 6 (c_string [97, 97, 98, 98, 98, 99]) (fun _ => ⟨0, 0⟩)
      (fun _ => 0) (env0 2) (by decide) (by decide) (by decide) (List.Perm.refl _)
      (List.Perm.refl _)⟩

set_option maxRecDepth 100000 in
/-- C1, counterexample.  With the input "aab" and two workers (1 ≤ 2 ≤ 3) the
output is [(a,1),(a,1)]: the trailing "b" is in no pair, and merging the adjacent
pairs does not give the encoding [(a,2),(b,1)] of the input.  With an input of
256 times "a" and one worker the output is [(a,0)], not [(a,256)]. -/
theorem pzip_output_ne_rle :
    (pzip 2 (c_string [97, 97, 98]) 3 (fun _ => ⟨0, 0⟩) (fun _ => 0) (env0 2)).map
        (fun r => pairs (zipped_output r)) = some [(97, 1), (97, 1)] ∧
    rle (slice (c_string [97, 97, 98]) 0 3) = [(97, 2), (98, 1)] ∧
    (pzip 2 (c_string [97, 97, 98]) 3 (fun _ => ⟨0, 0⟩) (fun _ => 0) (env0 2)).map
        (fun r => coalesce (pairs (zipped_output r))) ≠
      some (rle (slice (c_string [97, 97, 98]) 0 3)) ∧
    (pzip 1 (c_string (List.replicate 256 97)) 256 (fun _ => ⟨0, 0⟩) (fun _ => 0)
        (env0 1)).map (fun r => pairs (zipped_output r)) = some [(97, 0)] ∧
    rle (slice (c_string (List.replicate 256 97)) 0 256) = [(97, 256)] := by
  decide

/-- C2, the code at two inputs with a zeroed table.  For "aab" with one worker
the entries for a, b are 0, 2 (the input has a:2, b:1) and the count of the last
run is added at index `0 - 'a' = -97`, outside the table.  For "aaabbbccd" with
three workers the entries for a, b, c, d are 0, 3, 3, 2 (the input has a:3, b:3,
c:2, d:1).  Each run is counted for the character that follows it. -/
theorem pzip_char_frequency_shifted :
    (pzip 1 (c_string [97, 97, 98]) 3 (fun _ => ⟨0, 0⟩) (fun _ => 0) (env0 1)).map
        (fun r => ((List.range 26).map (fun (i : Nat) => r.char_frequency (i : Int)),
          r.char_frequency (-97)))
      = some (0 :: 2 :: List.replicate 24 0, 1) ∧
    (pzip 3 (c_string [97, 97, 97, 98, 98, 98, 99, 99, 100]) 9 (fun _ => ⟨0, 0⟩)
        (fun _ => 0) (env0 3)).map
        (fun r => ((List.range 26).map (fun (i : Nat) => r.char_frequency (i : Int)),
          r.char_frequency (-97)))
      = some (0 :: 3 :: 3 :: 2 :: List.replicate 22 0, 1) := by
  decide

/-- C3, the code at N = 10, K = 3: the three slices are [0,3), [3,6), [6,9);
their lengths sum to 9 and index 9 of the input lies in no slice. -/
theorem create_args_ten_three_drops_index_nine :
    (List.range 3).map (fun i => ((create_args 3 0 10 i).input_chars,
        (create_args 3 0 10 i).input_chars_size)) = [(0, 3), (3, 3), (6, 3)] ∧
    ((List.range 3).map (fun i => (create_args 3 0 10 i).input_chars_size)).sum = 9 ∧
    ∀ i, i < 3 → ¬ ((create_args 3 0 10 i).input_chars ≤ 9 ∧
      9 < (create_args 3 0 10 i).input_chars + (create_args 3 0 10 i).input_chars_size) := by
  decide

/-- C4: start from the table of `malloc_lengths` for `K` workers, with any values
`len i` in the `length` fields, and let the workers resolve their offsets through
`write_to_zipped_chars` in any order `ws` that contains each worker once.  Then
`lengths[i].length` is unchanged and `lengths[i].start_index` is the sum of
`lengths[j].length` over `j < i`, for every `i < K`; equivalently
`start_index(0) = 0` and `start_index(i + 1) = start_index(i) + length(i)`. -/
theorem start_index_eq_prefix_sum (K N : Nat) (temp : Nat → write_to_location)
    (len : Nat → Int) (z : Int → zipped_char) (cf : Int → Int)
    (loc : Nat → Nat → zipped_char) (ws : List Nat) (hws : ws.Perm (List.range K)) :
    (∀ i, i < K →
      ((write_phase K N ws (at_barrier K temp len z cf loc)).lengths i).length = len i ∧
      ((write_phase K N ws (at_barrier K temp len z cf loc)).lengths i).start_index
        = ((List.range i).map len).sum) ∧
    (0 < K →
      ((write_phase K N ws (at_barrier K temp len z cf loc)).lengths 0).start_index = 0) ∧
    (∀ i, i + 1 < K →
      ((write_phase K N ws (at_barrier K temp len z cf loc)).lengths (i + 1)).start_index =
        ((write_phase K N ws (at_barrier K temp len z cf loc)).lengths i).start_index
          + len i) := by
  have mem : ∀ i, i ∈ ws ↔ i < K := fun i => by rw [hws.mem_iff, List.mem_range]
  have hok : offsets_ok K (at_barrier K temp len z cf loc).lengths := by
    refine ⟨malloc_lengths_zero K temp, fun i hi => ?_⟩
    by_cases h0 : i = 0
    · subst h0
      right
      simp only [at_barrier, malloc_lengths_zero]
      rfl
    · left
      exact malloc_lengths_pos K temp i (by omega) hi
  obtain ⟨q1, _, _, q4, _, _⟩ := write_phase_lengths K N ws
    (at_barrier K temp len z cf loc) hok (fun w hw => (mem w).1 hw)
  have hst : ∀ i, i < K →
      ((write_phase K N ws (at_barrier K temp len z cf loc)).lengths i).start_index
        = ((List.range i).map len).sum := fun i hi => by
    rw [q4 i ((mem i).2 hi)]
    rfl
  refine ⟨fun i hi => ⟨q1 i, hst i hi⟩, fun h0 => ?_, fun i hi => ?_⟩
  · rw [hst 0 h0]
    rfl
  · rw [hst (i + 1) hi, hst i (by omega)]
    simp [List.range_succ]

/-- Witness for C4: three workers with lengths 2, 3, 1 that resolve their
offsets in the order 2, 0, 1 get the start indices 0, 2, 5. -/
theorem start_index_eq_prefix_sum_witness :
    [2, 0, 1].Perm (List.range 3) ∧
    (List.range 3).map (fun i =>
      ((write_phase 3 0 [2, 0, 1]
        (at_barrier 3 (fun _ => ⟨0, 0⟩) (fun i => ([2, 3, 1] : List Int).getD i 0)
          (fun _ => ⟨0, 0⟩) (fun _ => 0) (fun _ _ => ⟨0, 0⟩))).lengths i).start_index)
      = [0, 2, 5] := by
  have h := (start_index_eq_prefix_sum 3 0 (fun _ => ⟨0, 0⟩)
    (fun i => ([2, 3, 1] : List Int).getD i 0) (fun _ => ⟨0, 0⟩) (fun _ => 0)
    (fun _ _ => ⟨0, 0⟩) [2, 0, 1] (by decide)).1
  refine ⟨by decide, ?_⟩
  simp only [List.range_succ, List.range_zero, List.nil_append, List.cons_append,
    List.map_cons, List.map_nil, (h 0 (by decide)).2, (h 1 (by decide)).2,
    (h 2 (by decide)).2]
  decide

/-- C5: for every input, every worker count `K ≥ 1` and every schedule that
runs each worker once, `pzip` returns with `*zipped_chars_count` equal to the
length plus the start index of the last worker, which is the total number of
pairs emitted by all workers; the write ranges
`[start_index(i), start_index(i) + length(i))` of the workers are pairwise
disjoint, their union is exactly `[0, zipped_chars_count)`, and every cell of a
worker's range holds that worker's pair. -/
theorem pzip_count_and_write_ranges (K N : Nat) (input : Nat → Int)
    (z : Int → zipped_char) (cf : Int → Int) (env : run_env) (hK : 1 ≤ K)
    (hc : env.compress_order.Perm (List.range K))
    (hw : env.write_order.Perm (List.range K)) :
    ∃ r, pzip K input N z cf env = some r ∧
      r.zipped_chars_count =
        (r.final.lengths (K - 1)).length + (r.final.lengths (K - 1)).start_index ∧
      r.zipped_chars_count =
        ((List.range K).map (fun i => ((worker_output r.final i).length : Int))).sum ∧
      (∀ idx : Int, (0 ≤ idx ∧ idx < r.zipped_chars_count) ↔
        ∃ i, i < K ∧ write_range r.final i idx) ∧
      (∀ (i j : Nat) (idx : Int), i < K → j < K →
        write_range r.final i idx → write_range r.final j idx → i = j) ∧
      (∀ (i : Nat) (idx : Int), i < K → write_range r.final i idx →
        r.zipped_chars idx =
          r.final.zipped_chars_local i (idx - (r.final.lengths i).start_index).toNat) := by
  obtain ⟨r, h1, h2, h3, h4, h5, _, _, h8⟩ := pzip_spec K input N z cf env hK hc hw
  have hsucc := worker_offset_succ K input N
  have hmono := worker_offset_mono K input N
  have hlast : K - 1 + 1 = K := by omega
  refine ⟨r, h1, ?_, ?_, ?_, ?_, ?_⟩
  · rw [h5, h2 (K - 1) (by omega), h3 (K - 1) (by omega)]
    have := hsucc (K - 1)
    rw [hlast] at this
    rw [this]
    push_cast
    ring
  · rw [h5]
    have : ∀ k, k ≤ K →
        ((List.range k).map (fun i => ((worker_output r.final i).length : Int))).sum
          = (worker_offset K input N k : Int) := by
      intro k
      induction k with
      | zero => intro _; rfl
      | succ k ih =>
        intro hk
        rw [List.range_succ, List.map_append, List.sum_append, ih (by omega), hsucc]
        simp [h4 k (by omega)]
    rw [this K (le_refl K)]
  · intro idx
    rw [h5]
    constructor
    · rintro ⟨a, b⟩
      obtain ⟨n, rfl⟩ : ∃ n : Nat, idx = n := ⟨idx.toNat, by omega⟩
      obtain ⟨i, hi, c, d⟩ := worker_offset_locate K input N K n (by exact_mod_cast b)
      refine ⟨i, hi, ?_, ?_⟩
      · rw [h3 i hi]; exact_mod_cast c
      · rw [h3 i hi, h2 i hi]; exact_mod_cast d
    · rintro ⟨i, hi, a, b⟩
      rw [h3 i hi] at a b
      rw [h2 i hi] at b
      have := hmono (i + 1) K (by omega)
      rw [hsucc] at this
      omega
  · intro i j idx hi hj ⟨a, b⟩ ⟨c, d⟩
    rw [h3 i hi] at a b
    rw [h2 i hi] at b
    rw [h3 j hj] at c d
    rw [h2 j hj] at d
    by_contra hne
    rcases Nat.lt_or_gt_of_ne hne with hlt | hgt
    · have := hmono (i + 1) j (by omega)
      rw [hsucc] at this
      omega
    · have := hmono (j + 1) i (by omega)
      rw [hsucc] at this
      omega
  · intro i idx hi ⟨a, b⟩
    rw [h3 i hi] at a b ⊢
    rw [h2 i hi] at b
    have := h8 i hi (idx - (worker_offset K input N i : Int)).toNat (by omega)
    rw [← this]
    congr 1
    omega

/-- Witness for C5: the input "aabbbc" with two workers, the second worker
running first in both phases. -/
theorem pzip_count_and_write_ranges_witness :
    ∃ r, pzip 2 (c_string [97, 97, 98, 98, 98, 99]) 6 (fun _ => ⟨0, 0⟩) (fun _ => 0)
        { temp := fun _ => ⟨7, 7⟩, heap := fun _ _ => ⟨0, 0⟩,
          compress_order := [1, 0], write_order := [1, 0] } = some r ∧
      r.zipped_chars_count =
        (r.final.lengths (2 - 1)).length + (r.final.lengths (2 - 1)).start_index ∧
      r.zipped_chars_count =
        ((List.range 2).map (fun i => ((worker_output r.final i).length : Int))).sum ∧
      (∀ idx : Int, (0 ≤ idx ∧ idx < r.zipped_chars_count) ↔
        ∃ i, i < 2 ∧ write_range r.final i idx) ∧
      (∀ (i j : Nat) (idx : Int), i < 2 → j < 2 →
        write_range r.final i idx → write_range r.final j idx → i = j) ∧
      (∀ (i : Nat) (idx : Int), i < 2 → write_range r.final i idx →
        r.zipped_chars idx =
          r.final.zipped_chars_local i (idx - (r.final.lengths i).start_index).toNat) :=
  pzip_count_and_write_ranges 2 6 (c_string [97, 97, 98, 98, 98, 99]) (fun _ => ⟨0, 0⟩)
    (fun _ => 0)
    { temp := fun _ => ⟨7, 7⟩, heap := fun _ _ => ⟨0, 0⟩,
      compress_order := [1, 0], write_order := [1, 0] }
    (by decide) (by decide) (by decide)

/-- C6: whenever the first nine input characters are "aaabbbccd" and `pzip` runs
with three workers, in any schedule that runs each worker once, worker 0 emits
[(a,3)], worker 1 emits [(b,3)], worker 2 emits [(c,2),(d,1)], the merged output
in `zipped_chars` is [(a,3),(b,3),(c,2),(d,1)] and `zipped_chars_count` is 4. -/
theorem pzip_aaabbbccd (input : Nat → Int) (z : Int → zipped_char) (cf : Int → Int)
    (env : run_env)
    (hin : slice input 0 9 = [97, 97, 97, 98, 98, 98, 99, 99, 100])
    (hc : env.compress_order.Perm (List.range 3))
    (hw : env.write_order.Perm (List.range 3)) :
    ∃ r, pzip 3 input 9 z cf env = some r ∧
      worker_output r.final 0 = [⟨97, 3⟩] ∧
      worker_output r.final 1 = [⟨98, 3⟩] ∧
      worker_output r.final 2 = [⟨99, 2⟩, ⟨100, 1⟩] ∧
      zipped_output r = [⟨97, 3⟩, ⟨98, 3⟩, ⟨99, 2⟩, ⟨100, 1⟩] ∧
      r.zipped_chars_count = 4 := by
  obtain ⟨r, h1, _, _, h4, h5, h6, _, _⟩ := pzip_spec 3 input 9 z cf env (by decide) hc hw
  simp [slice, List.range_succ] at hin
  obtain ⟨i0, i1, i2, i3, i4, i5, i6, i7, i8⟩ := hin
  have e0 : worker_emitted 3 input 9 0 = [⟨97, 3⟩] := by
    simp [worker_emitted, emitted, worker_view, create_args, List.range', rle_go, stored,
      i0, i1, i2]
  have e1 : worker_emitted 3 input 9 1 = [⟨98, 3⟩] := by
    simp [worker_emitted, emitted, worker_view, create_args, List.range', rle_go, stored,
      i3, i4, i5]
  have e2 : worker_emitted 3 input 9 2 = [⟨99, 2⟩, ⟨100, 1⟩] := by
    simp [worker_emitted, emitted, worker_view, create_args, List.range', rle_go, stored,
      i6, i7, i8]
  refine ⟨r, h1, ?_, ?_, ?_, ?_, ?_⟩
  · rw [h4 0 (by decide), e0]
  · rw [h4 1 (by decide), e1]
  · rw [h4 2 (by decide), e2]
  · rw [h6]
    simp [List.range_succ, e0, e1, e2]
  · rw [h5]
    simp [worker_offset, List.range_succ, e0, e1, e2]

/-- Witness for C6: the C string "aaabbbccd", zeroed arrays, worker 2 first. -/
theorem pzip_aaabbbccd_witness :
    ∃ r, pzip 3 (c_string [97, 97, 97, 98, 98, 98, 99, 99, 100]) 9 (fun _ => ⟨0, 0⟩)
        (fun _ => 0)
        { temp := fun _ => ⟨0, 0⟩, heap := fun _ _ => ⟨0, 0⟩,
          compress_order := [2, 0, 1], write_order := [2, 1, 0] } = some r ∧
      worker_output r.final 0 = [⟨97, 3⟩] ∧
      worker_output r.final 1 = [⟨98, 3⟩] ∧
      worker_output r.final 2 = [⟨99, 2⟩, ⟨100, 1⟩] ∧
      zipped_output r = [⟨97, 3⟩, ⟨98, 3⟩, ⟨99, 2⟩, ⟨100, 1⟩] ∧
      r.zipped_chars_count = 4 :=
  pzip_aaabbbccd (c_string [97, 97, 97, 98, 98, 98, 99, 99, 100]) (fun _ => ⟨0, 0⟩)
    (fun _ => 0)
    { temp := fun _ => ⟨0, 0⟩, heap := fun _ _ => ⟨0, 0⟩,
      compress_order := [2, 0, 1], write_order := [2, 1, 0] }
    (by decide) (by decide) (by decide)

/-- C7, the code at the input "aab" with four workers: every slice has length
`3 / 4 = 0`, every worker emits the one pair (a,0), the merged output is
[(a,0),(a,0),(a,0),(a,0)] and `zipped_chars_count` is 4. -/
theorem pzip_aab_four_workers :
    (pzip 4 (c_string [97, 97, 98]) 3 (fun _ => ⟨0, 0⟩) (fun _ => 0) (env0 4)).map
        (fun r => ((List.range 4).map (worker_output r.final), zipped_output r,
          r.zipped_chars_count))
      = some ([[⟨97, 0⟩], [⟨97, 0⟩], [⟨97, 0⟩], [⟨97, 0⟩]],
          [⟨97, 0⟩, ⟨97, 0⟩, ⟨97, 0⟩, ⟨97, 0⟩], 4) ∧
    (List.range 4).map (fun i => (create_args 4 0 3 i).input_chars_size) = [0, 0, 0, 0] := by
  decide

/-- C8, the code on an empty slice: `compress` with `input_chars_size = 0`
stores the pair `(input_chars[0], 0)` at index 0 of its local array and sets
`lengths[order].length` to 1; the histogram is unchanged (0 is added to the
entry of `input_chars[0]`). -/
theorem compress_empty_slice (input_chars : Nat → Int) (char_frequency : Int → Int)
    (order : Nat) (lengths : Nat → write_to_location) (zipped_chars : Nat → zipped_char) :
    compress input_chars 0 char_frequency order lengths zipped_chars =
      some (upd zipped_chars 0 { character := input_chars 0, occurence := 0 },
        char_frequency,
        upd lengths order { length := 1, start_index := (lengths order).start_index }) := by
  have e : increment_char_frequency char_frequency (input_chars 0) 0 = char_frequency := by
    funext j
    simp [increment_char_frequency, upd]
    intro h
    rw [h]
  simp [compress, compress_loop, compress_body, append_to_zipped_chars, e]

/-- C10, the code at the input "aab" with four workers and an output buffer of
capacity 3 (cells 0, 1, 2): the cell at index 3 is overwritten with (a,0) and
`zipped_chars_count` is 4. -/
theorem pzip_aab_four_workers_writes_index_three :
    (pzip 4 (c_string [97, 97, 98]) 3 (fun _ => ⟨0, 5⟩) (fun _ => 0) (env0 4)).map
        (fun r => (r.zipped_chars 3, r.zipped_chars_count))
      = some (⟨97, 0⟩, 4) := by
  decide

set_option maxRecDepth 100000 in
/-- C9, counterexample: on a slice of 300 times "a", `compress` returns with one
pair, and the pair stored is (a,44): the run is neither split into (a,255),(a,45)
nor rejected, and the count is the wrapped one. -/
theorem compress_run_of_300 :
    (compress (c_string (List.replicate 300 97)) 300 (fun _ => 0) 0 (fun _ => ⟨0, 0⟩)
        (fun _ => ⟨0, 0⟩)).map (fun r => ((r.2.2 0).length, r.1 0))
      = some (1, ⟨97, 44⟩) := by
  decide

/-- C9, as amended: on every non-empty slice `compress` returns, with exactly
one pair per maximal run of the slice, in order, and the pair of a run of length
`L` holds the run's character and the count `L mod 256`.  A run of at most 255
characters is stored with its length; a longer run is stored as one pair with
the wrapped count (a run of 300 as (c,44)); no run is split and no input is
rejected. -/
theorem compress_stores_count_mod_256 (input_chars : Nat → Int) (input_chars_size : Nat)
    (char_frequency : Int → Int) (order : Nat) (lengths : Nat → write_to_location)
    (zipped_chars : Nat → zipped_char) (h : 0 < input_chars_size) :
    ∃ res, compress input_chars input_chars_size char_frequency order lengths zipped_chars
        = some res ∧
      (res.2.2 order).length = ((rle (slice input_chars 0 input_chars_size)).length : Int) ∧
      (List.range (rle (slice input_chars 0 input_chars_size)).length).map res.1 =
        (rle (slice input_chars 0 input_chars_size)).map
          (fun p => { character := p.1, occurence := p.2 % 256 }) := by
  refine ⟨_, compress_spec input_chars input_chars_size char_frequency order lengths
    zipped_chars, ?_, ?_⟩
  · simp [upd, emitted_eq, runs_pos _ _ h, slice_zero]
  · have := map_fill (emitted input_chars input_chars_size) zipped_chars
    have e : emitted input_chars input_chars_size
        = (rle (slice input_chars 0 input_chars_size)).map stored := by
      rw [emitted_eq, runs_pos _ _ h, slice_zero]
    rw [e] at this ⊢
    simp only [List.length_map] at this
    exact this

/-- Witness for C9 as amended: the slice "aab". -/
theorem compress_stores_count_mod_256_witness :
    ∃ res, compress (c_string [97, 97, 98]) 3 (fun _ => 0) 0 (fun _ => ⟨0, 0⟩)
        (fun _ => ⟨0, 0⟩) = some res ∧
      (res.2.2 0).length = ((rle (slice (c_string [97, 97, 98]) 0 3)).length : Int) ∧
      (List.range (rle (slice (c_string [97, 97, 98]) 0 3)).length).map res.1 =
        (rle (slice (c_string [97, 97, 98]) 0 3)).map
          (fun p => { character := p.1, occurence := p.2 % 256 }) :=
  compress_stores_count_mod_256 (c_string [97, 97, 98]) 3 (fun _ => 0) 0 (fun _ => ⟨0, 0⟩)
    (fun _ => ⟨0, 0⟩) (by decide)

/-! ## Second part: the copy, the partition, the round trip -/

theorem calc_starting_index_length (L : Nat → write_to_location) : ∀ (order i : Nat),
    ((calc_starting_index L order).1 i).length = (L i).length := by
  intro order
  induction order with
  | zero => intro i; rfl
  | succ o ih =>
    intro i
    by_cases hs : (L (o + 1)).start_index = -1
    · rw [calc_starting_index]
      simp only [hs, ne_eq, not_true_eq_false, if_false]
      by_cases hi : i = o + 1
      · subst hi; simp [upd, ih]
      · simp [upd, hi, ih]
    · rw [calc_starting_index]
      simp [hs]

/-- C11: `write_to_zipped_chars` for the worker `order`, with `s` the start index
of the worker (as resolved by the call, and the one found in the table when it
was resolved before) and `L = lengths[order].length`: the call sets
`zipped_chars[s + i]` to the worker's `i`-th local pair (same character, same
count) for every `i < L`, leaves every cell outside `[s, s + L)` unchanged, and
changes no `length` field. -/
theorem write_to_zipped_chars_frame (g : Int → zipped_char) (loc : Nat → zipped_char)
    (order : Nat) (lengths : Nat → write_to_location) :
    (∀ i : Nat, (i : Int) < (lengths order).length →
      (write_to_zipped_chars g loc order lengths).1
        (((write_to_zipped_chars g loc order lengths).2 order).start_index + (i : Int))
        = loc i) ∧
    (∀ idx : Int,
      ¬ (((write_to_zipped_chars g loc order lengths).2 order).start_index ≤ idx ∧
        idx < ((write_to_zipped_chars g loc order lengths).2 order).start_index
          + (lengths order).length) →
      (write_to_zipped_chars g loc order lengths).1 idx = g idx) ∧
    (∀ i, ((write_to_zipped_chars g loc order lengths).2 i).length = (lengths i).length) ∧
    ((lengths order).start_index ≠ -1 →
      (write_to_zipped_chars g loc order lengths).2 = lengths) := by
  have hlen : ∀ i, ((write_to_zipped_chars g loc order lengths).2 i).length
      = (lengths i).length := by
    intro i
    by_cases hs : (lengths order).start_index = -1
    · simp only [write_to_zipped_chars, hs, if_true]
      exact calc_starting_index_length lengths order i
    · simp only [write_to_zipped_chars, hs, if_false]
  have e : ∀ idx, (write_to_zipped_chars g loc order lengths).1 idx =
      if ((write_to_zipped_chars g loc order lengths).2 order).start_index ≤ idx ∧
        idx < ((write_to_zipped_chars g loc order lengths).2 order).start_index
          + (((lengths order).length.toNat : Nat) : Int)
      then loc (idx - ((write_to_zipped_chars g loc order lengths).2 order).start_index).toNat
      else g idx := by
    intro idx
    have e1 : (write_to_zipped_chars g loc order lengths).1 =
        (List.range ((write_to_zipped_chars g loc order lengths).2 order).length.toNat).foldl
          (fun (g1 : Int → zipped_char) (i : Nat) =>
            upd g1 ((i : Int) + ((write_to_zipped_chars g loc order lengths).2 order).start_index)
              { character := (loc i).character, occurence := (loc i).occurence }) g := rfl
    rw [e1, copy_spec, hlen]
  refine ⟨?_, ?_, hlen, ?_⟩
  · intro i hi
    rw [e, if_pos (by omega)]
    congr 1
    omega
  · intro idx hidx
    rw [e, if_neg (by omega)]
  · intro hs
    simp only [write_to_zipped_chars, hs, if_false]

/-- Witness for C11: a worker with start index 2 and two local pairs, in an
output array of zero pairs: the cells 2 and 3 receive the pairs, cell 4 and
cell 1 keep their content, and the table is unchanged. -/
theorem write_to_zipped_chars_frame_witness :
    (write_to_zipped_chars (fun _ => ⟨0, 0⟩) (fun i => ⟨100 + (i : Int), 7⟩) 1
        (fun _ => ⟨2, 2⟩)).1 (2 + ((1 : Nat) : Int)) = ⟨100 + ((1 : Nat) : Int), 7⟩ ∧
    (write_to_zipped_chars (fun _ => ⟨0, 0⟩) (fun i => ⟨100 + (i : Int), 7⟩) 1
        (fun _ => ⟨2, 2⟩)).1 4 = ⟨0, 0⟩ ∧
    (write_to_zipped_chars (fun _ => ⟨0, 0⟩) (fun i => ⟨100 + (i : Int), 7⟩) 1
        (fun _ => ⟨2, 2⟩)).2 = (fun _ => ⟨2, 2⟩) :=
  ⟨(write_to_zipped_chars_frame (fun _ => ⟨0, 0⟩) (fun i => ⟨100 + (i : Int), 7⟩) 1
      (fun _ => ⟨2, 2⟩)).1 1 (by decide),
    (write_to_zipped_chars_frame (fun _ => ⟨0, 0⟩) (fun i => ⟨100 + (i : Int), 7⟩) 1
      (fun _ => ⟨2, 2⟩)).2.1 4 (by decide),
    (write_to_zipped_chars_frame (fun _ => ⟨0, 0⟩) (fun i => ⟨100 + (i : Int), 7⟩) 1
      (fun _ => ⟨2, 2⟩)).2.2.2 (by decide)⟩

/-- C16: for every input length `N`, every worker count `K ≥ 1` and every worker
index `i < K`, `create_args` gives worker `i` the slice that starts at
`i * (N / K)` and has length `N / K`.  The slices are equal-sized, contiguous and
pairwise disjoint, their union is exactly `[0, K * (N / K))`, and the trailing
`N mod K` characters, those at the indices from `K * (N / K)` on, belong to no
slice. -/
theorem create_args_slices (N K : Nat) (_hK : 1 ≤ K) :
    (∀ i, i < K →
      (create_args K 0 N i).input_chars = i * (N / K) ∧
      (create_args K 0 N i).input_chars_size = N / K ∧
      (create_args K 0 N i).order = i) ∧
    (∀ i, i + 1 < K →
      (create_args K 0 N (i + 1)).input_chars =
        (create_args K 0 N i).input_chars + (create_args K 0 N i).input_chars_size) ∧
    (∀ i j idx, i < K → j < K → in_slice (create_args K 0 N i) idx →
      in_slice (create_args K 0 N j) idx → i = j) ∧
    (∀ idx, (∃ i, i < K ∧ in_slice (create_args K 0 N i) idx) ↔ idx < K * (N / K)) ∧
    (∀ idx, K * (N / K) ≤ idx → ¬ ∃ i, i < K ∧ in_slice (create_args K 0 N i) idx) ∧
    N = K * (N / K) + N % K ∧ K * (N / K) ≤ N := by
  have hiff : ∀ idx, (∃ i, i < K ∧ in_slice (create_args K 0 N i) idx) ↔ idx < K * (N / K) := by
    intro idx
    simp only [in_slice, create_args, Nat.zero_add]
    constructor
    · rintro ⟨i, hi, _, h2⟩
      calc idx < i * (N / K) + N / K := h2
        _ = (i + 1) * (N / K) := by ring
        _ ≤ K * (N / K) := Nat.mul_le_mul_right _ (by omega)
    · intro h
      have hs : 0 < N / K := by
        rcases Nat.eq_zero_or_pos (N / K) with h0 | h0
        · rw [h0] at h; simp at h
        · exact h0
      refine ⟨idx / (N / K), ?_, Nat.div_mul_le_self _ _, ?_⟩
      · exact (Nat.div_lt_iff_lt_mul hs).2 h
      · have := Nat.lt_succ_self (idx / (N / K))
        have h3 := (Nat.div_lt_iff_lt_mul hs).1 this
        calc idx < (idx / (N / K) + 1) * (N / K) := h3
          _ = idx / (N / K) * (N / K) + N / K := by ring
  refine ⟨fun i _ => ⟨by simp [create_args], rfl, rfl⟩, ?_, ?_, hiff, ?_, ?_, ?_⟩
  · intro i _
    simp only [create_args, Nat.zero_add]
    ring
  · intro i j idx _ _ hi hj
    simp only [in_slice, create_args, Nat.zero_add] at hi hj
    by_contra hne
    rcases Nat.lt_or_gt_of_ne hne with hlt | hgt
    · have : (i + 1) * (N / K) ≤ j * (N / K) := Nat.mul_le_mul_right _ (by omega)
      have e : (i + 1) * (N / K) = i * (N / K) + N / K := by ring
      omega
    · have : (j + 1) * (N / K) ≤ i * (N / K) := Nat.mul_le_mul_right _ (by omega)
      have e : (j + 1) * (N / K) = j * (N / K) + N / K := by ring
      omega
  · intro idx h hex
    have := (hiff idx).1 hex
    omega
  · exact (Nat.div_add_mod N K).symm
  · exact Nat.mul_div_le N K

/-- Witness for C16: ten characters, three workers; index 9 is in no slice. -/
theorem create_args_slices_witness :
    1 ≤ 3 ∧
    (create_args 3 0 10 2).input_chars = 2 * (10 / 3) ∧
    (create_args 3 0 10 2).input_chars_size = 10 / 3 ∧
    ¬ ∃ i, i < 3 ∧ in_slice (create_args 3 0 10 i) 9 :=
  ⟨by decide, ((create_args_slices 10 3 (by decide)).1 2 (by decide)).1,
    ((create_args_slices 10 3 (by decide)).1 2 (by decide)).2.1,
    (create_args_slices 10 3 (by decide)).2.2.2.2.1 9 (by decide)⟩

/-- C17: for a worker count `K` with `1 ≤ K ≤ N` and an input in which no slice
contains a run longer than 255, expanding the pairs
`zipped_chars[0 .. zipped_chars_count)` in order, each character repeated
`occurence` times, gives exactly the first `K * (N / K)` characters of the
input; when `K` divides `N` this is the whole input. -/
theorem pzip_round_trip (K N : Nat) (input : Nat → Int)
    (z : Int → zipped_char) (cf : Int → Int) (env : run_env)
    (hK : 1 ≤ K) (hKN : K ≤ N)
    (hc : env.compress_order.Perm (List.range K))
    (hw : env.write_order.Perm (List.range K))
    (hrun : ∀ i, i < K → ∀ p, p ∈ rle (slice input (i * (N / K)) (N / K)) → p.2 ≤ 255) :
    ∃ r, pzip K input N z cf env = some r ∧
      expand (pairs (zipped_output r)) = slice input 0 (K * (N / K)) ∧
      (K ∣ N → expand (pairs (zipped_output r)) = slice input 0 N) := by
  obtain ⟨r, h1, _, _, _, _, h6, _, _⟩ := pzip_spec K input N z cf env hK hc hw
  have hsize : 0 < N / K := Nat.div_pos hKN hK
  have hp : pairs (zipped_output r) =
      ((List.range K).map (fun i => rle (slice input (i * (N / K)) (N / K)))).flatten := by
    rw [h6, pairs_flatten, List.map_map]
    congr 1
    apply List.map_congr_left
    intro i hi
    simp only [Function.comp, worker_emitted_pos K input N i hsize]
    exact pairs_stored _ (fun p hp => by
      have := hrun i (List.mem_range.mp hi) p hp
      omega)
  have he : expand (pairs (zipped_output r)) = slice input 0 (K * (N / K)) := by
    rw [hp]
    have := expand_flatten_rle
      ((List.range K).map (fun i => slice input (i * (N / K)) (N / K)))
    rw [List.map_map] at this
    rw [slices_flatten] at this
    exact this
  refine ⟨r, h1, he, fun hdvd => ?_⟩
  rw [he, Nat.mul_div_cancel' hdvd]

/-- Witness for C17: the input "aabbbcc" with two workers; the seventh
character is not in the expansion. -/
theorem pzip_round_trip_witness :
    (2 ≤ 7) ∧
    ∃ r, pzip 2 (c_string [97, 97, 98, 98, 98, 99, 99]) 7 (fun _ => ⟨0, 0⟩) (fun _ => 0)
        (env0 2) = some r ∧
      expand (pairs (zipped_output r))
        = slice (c_string [97, 97, 98, 98, 98, 99, 99]) 0 (2 * (7 / 2)) ∧
      (2 ∣ 7 → expand (pairs (zipped_output r))
        = slice (c_string [97, 97, 98, 98, 98, 99, 99]) 0 7) :=
  ⟨by decide,
    pzip_round_trip 2 7 (c_string [97, 97, 98, 98, 98, 99, 99]) (fun _ => ⟨0, 0⟩)
      (fun _ => 0) (env0 2) (by decide) (by decide) (List.Perm.refl _) (List.Perm.refl _)
      (by decide)⟩

/-! ## Runs -/

theorem rle_go_chain (xs : List Int) : ∀ (c : Int) (n : Nat),
    List.Chain' (fun a b : Int × Nat => a.1 ≠ b.1) (rle_go c n xs) := by
  induction xs with
  | nil => intro c n; simp [rle_go]
  | cons x xs ih =>
    intro c n
    by_cases h : x = c
    · simp only [rle_go, h, if_true]
      exact ih c (n + 1)
    · simp only [rle_go, h, if_false]
      obtain ⟨m, t, e⟩ := rle_go_head xs x 1
      have := ih x 1
      rw [e] at this ⊢
      exact List.Chain'.cons (fun hc => h hc.symm) this

theorem rle_chain (xs : List Int) :
    List.Chain' (fun a b : Int × Nat => a.1 ≠ b.1) (rle xs) := by
  cases xs with
  | nil => simp [rle]
  | cons x xs => exact rle_go_chain xs x 1

theorem rle_go_sum (xs : List Int) : ∀ (c : Int) (n : Nat),
    ((rle_go c n xs).map Prod.snd).sum = n + xs.length := by
  induction xs with
  | nil => intro c n; simp [rle_go]
  | cons x xs ih =>
    intro c n
    by_cases h : x = c
    · simp only [rle_go, h, if_true, ih, List.length_cons]
      omega
    · simp only [rle_go, h, if_false, List.map_cons, List.sum_cons, ih, List.length_cons]
      omega

theorem rle_sum (xs : List Int) : ((rle xs).map Prod.snd).sum = xs.length := by
  cases xs with
  | nil => rfl
  | cons x xs =>
    simp only [rle, rle_go_sum, List.length_cons]
    omega

theorem slice_length (f : Nat → Int) (o size : Nat) : (slice f o size).length = size := by
  simp [slice]

theorem compress_output_eq (input_chars : Nat → Int) (size : Nat) (cf : Int → Int)
    (order : Nat) (lengths : Nat → write_to_location) (z : Nat → zipped_char)
    (h : 0 < size) :
    ∃ res, compress input_chars size cf order lengths z = some res ∧
      compress_output res order = (rle (slice input_chars 0 size)).map stored ∧
      (res.2.2 order).length = ((rle (slice input_chars 0 size)).length : Int) ∧
      ∀ k, res.1 k = fill z 0 ((rle (slice input_chars 0 size)).map stored) k := by
  have e : emitted input_chars size = (rle (slice input_chars 0 size)).map stored := by
    rw [emitted_eq, runs_pos _ _ h, slice_zero]
  refine ⟨_, compress_spec input_chars size cf order lengths z, ?_, ?_, ?_⟩
  · simp only [compress_output, upd, if_true, Int.toNat_ofNat]
    rw [e]
    have := map_fill ((rle (slice input_chars 0 size)).map stored) z
    simpa using this
  · simp [upd, e]
  · intro k
    simp only [e]

/-- C15: on every non-empty slice in which no run is longer than 255, `compress`
returns with exactly one pair per maximal run of equal characters, in
left-to-right order: the pairs are the run-length encoding of the slice, so
expanding them gives the slice back; adjacent pairs have different characters;
every count is at least 1; the counts sum to the slice length; and
`lengths[order].length` is the number of pairs. -/
theorem compress_one_pair_per_run (input_chars : Nat → Int) (input_chars_size : Nat)
    (char_frequency : Int → Int) (order : Nat) (lengths : Nat → write_to_location)
    (zipped_chars : Nat → zipped_char) (h : 0 < input_chars_size)
    (hrun : ∀ p, p ∈ rle (slice input_chars 0 input_chars_size) → p.2 ≤ 255) :
    ∃ res, compress input_chars input_chars_size char_frequency order lengths zipped_chars
        = some res ∧
      pairs (compress_output res order) = rle (slice input_chars 0 input_chars_size) ∧
      expand (pairs (compress_output res order)) = slice input_chars 0 input_chars_size ∧
      List.Chain' (fun a b : zipped_char => a.character ≠ b.character)
        (compress_output res order) ∧
      (∀ z, z ∈ compress_output res order → 1 ≤ z.occurence) ∧
      ((compress_output res order).map (fun z => z.occurence)).sum = input_chars_size ∧
      (res.2.2 order).length = ((compress_output res order).length : Int) := by
  obtain ⟨res, h1, h2, h3, _⟩ := compress_output_eq input_chars input_chars_size
    char_frequency order lengths zipped_chars h
  have hp : pairs (compress_output res order) = rle (slice input_chars 0 input_chars_size) := by
    rw [h2]
    exact pairs_stored _ (fun p hp => by have := hrun p hp; omega)
  refine ⟨res, h1, hp, ?_, ?_, ?_, ?_, ?_⟩
  · rw [hp, expand_rle]
  · have hc := rle_chain (slice input_chars 0 input_chars_size)
    rw [← hp] at hc
    simp only [pairs] at hc
    exact (List.chain'_map (R := fun a b : Int × Nat => a.1 ≠ b.1)
      (fun z : zipped_char => (z.character, z.occurence))).1 hc
  · intro z hz
    have : (z.character, z.occurence) ∈ pairs (compress_output res order) := by
      simp only [pairs, List.mem_map]
      exact ⟨z, hz, rfl⟩
    rw [hp] at this
    exact rle_pos _ _ this
  · have hs := rle_sum (slice input_chars 0 input_chars_size)
    rw [← hp, slice_length] at hs
    simp only [pairs, List.map_map] at hs
    exact hs
  · rw [h3, h2, List.length_map]

/-- Witness for C15: the slice "aabccc". -/
theorem compress_one_pair_per_run_witness :
    ∃ res, compress (c_string [97, 97, 98, 99, 99, 99]) 6 (fun _ => 0) 0 (fun _ => ⟨0, 0⟩)
        (fun _ => ⟨0, 0⟩) = some res ∧
      pairs (compress_output res 0) = rle (slice (c_string [97, 97, 98, 99, 99, 99]) 0 6) ∧
      expand (pairs (compress_output res 0)) = slice (c_string [97, 97, 98, 99, 99, 99]) 0 6 ∧
      List.Chain' (fun a b : zipped_char => a.character ≠ b.character)
        (compress_output res 0) ∧
      (∀ z, z ∈ compress_output res 0 → 1 ≤ z.occurence) ∧
      ((compress_output res 0).map (fun z => z.occurence)).sum = 6 ∧
      (res.2.2 0).length = ((compress_output res 0).length : Int) :=
  compress_one_pair_per_run (c_string [97, 97, 98, 99, 99, 99]) 6 (fun _ => 0) 0
    (fun _ => ⟨0, 0⟩) (fun _ => ⟨0, 0⟩) (by decide) (by decide)

theorem coalesce_go_of_chain (ps : List (Int × Nat)) : ∀ (c : Int) (n : Nat),
    List.Chain' (fun a b : Int × Nat => a.1 ≠ b.1) ((c, n) :: ps) →
    coalesce_go c n ps = (c, n) :: ps := by
  induction ps with
  | nil => intro c n _; rfl
  | cons p ps ih =>
    intro c n hch
    rw [List.chain'_cons] at hch
    have hne : ¬ p.1 = c := fun e => hch.1 e.symm
    simp only [coalesce_go, hne, if_false]
    rw [ih p.1 p.2 hch.2]

theorem coalesce_of_chain (ps : List (Int × Nat))
    (h : List.Chain' (fun a b : Int × Nat => a.1 ≠ b.1) ps) : coalesce ps = ps := by
  cases ps with
  | nil => rfl
  | cons p ps => exact coalesce_go_of_chain ps p.1 p.2 h

theorem rle_go_getLast (xs : List Int) : ∀ (c : Int) (n : Nat) (x : Int × Nat),
    (rle_go c n xs).getLast? = some x → (c :: xs).getLast? = some x.1 := by
  induction xs with
  | nil =>
    intro c n x hx
    simp only [rle_go, List.getLast?_singleton, Option.some.injEq] at hx
    rw [← hx]
    rfl
  | cons y ys ih =>
    intro c n x hx
    by_cases h : y = c
    · simp only [rle_go, h, if_true] at hx
      have := ih c (n + 1) x hx
      rw [List.getLast?_cons_cons, h]
      exact this
    · simp only [rle_go, h, if_false] at hx
      obtain ⟨m, t, e⟩ := rle_go_head ys y 1
      rw [e, List.getLast?_cons_cons, ← e] at hx
      rw [List.getLast?_cons_cons]
      exact ih y 1 x hx

theorem rle_getLast (xs : List Int) (x : Int × Nat) (h : (rle xs).getLast? = some x) :
    xs.getLast? = some x.1 := by
  cases xs with
  | nil => simp [rle] at h
  | cons y ys => exact rle_go_getLast ys y 1 x h

theorem rle_head (xs : List Int) (x : Int × Nat) (h : (rle xs).head? = some x) :
    xs.head? = some x.1 := by
  cases xs with
  | nil => simp [rle] at h
  | cons y ys =>
    obtain ⟨m, t, e⟩ := rle_go_head ys y 1
    simp only [rle, e, List.head?_cons, Option.some.injEq] at h
    rw [← h]
    rfl

/-- The encoding of a list around one of its maximal runs. -/
theorem rle_around_run (pre post : List Int) (c : Int) (L : Nat) (hL : 1 ≤ L)
    (hpre : ∀ x, pre.getLast? = some x → x ≠ c)
    (hpost : ∀ y, post.head? = some y → y ≠ c) :
    rle (pre ++ List.replicate L c ++ post) = rle pre ++ (c, L) :: rle post := by
  have hexp : expand (rle pre ++ (c, L) :: rle post) = pre ++ List.replicate L c ++ post := by
    rw [expand_append, expand_rle]
    simp [expand, expand_rle]
  have hposv : ∀ p, p ∈ rle pre ++ (c, L) :: rle post → 1 ≤ p.2 := by
    intro p hp
    rcases List.mem_append.mp hp with h | h
    · exact rle_pos _ _ h
    · rcases List.mem_cons.mp h with h | h
      · rw [h]; exact hL
      · exact rle_pos _ _ h
  have hch : List.Chain' (fun a b : Int × Nat => a.1 ≠ b.1)
      (rle pre ++ (c, L) :: rle post) := by
    apply List.Chain'.append (rle_chain pre)
    · rw [List.chain'_cons']
      refine ⟨?_, rle_chain post⟩
      intro y hy
      have := rle_head post y hy
      exact fun e => hpost y.1 this e.symm
    · intro x hx y hy
      simp only [List.head?_cons, Option.mem_def, Option.some.injEq] at hy
      rw [← hy]
      exact hpre x.1 (rle_getLast pre x hx)
  rw [← hexp, rle_expand _ hposv, coalesce_of_chain _ hch]

theorem fill_at_zero (l : List zipped_char) (z : Nat → zipped_char) (j : Nat)
    (h : j < l.length) : fill z 0 l j = l.get ⟨j, h⟩ := by
  have := fill_at l z 0 j h
  rwa [Nat.zero_add] at this

/-- C19: in every slice, for every maximal run of `L` characters `c` (the slice
is `pre`, then `L ≥ 1` times `c`, then `post`, where `pre` does not end with `c`
and `post` does not start with `c`), the pair that `compress` stores for the run,
the one after the pairs of the runs of `pre`, is `(c, L mod 256)`. -/
theorem compress_run_count_mod_256 (input_chars : Nat → Int) (input_chars_size : Nat)
    (char_frequency : Int → Int) (order : Nat) (lengths : Nat → write_to_location)
    (zipped_chars : Nat → zipped_char) (pre post : List Int) (c : Int) (L : Nat)
    (hL : 1 ≤ L)
    (hs : slice input_chars 0 input_chars_size = pre ++ List.replicate L c ++ post)
    (hpre : ∀ x, pre.getLast? = some x → x ≠ c)
    (hpost : ∀ y, post.head? = some y → y ≠ c) :
    ∃ res, compress input_chars input_chars_size char_frequency order lengths zipped_chars
        = some res ∧
      ((rle pre).length : Int) < (res.2.2 order).length ∧
      res.1 (rle pre).length = { character := c, occurence := L % 256 } := by
  have hsize : 0 < input_chars_size := by
    have := congrArg List.length hs
    rw [slice_length] at this
    simp at this
    omega
  obtain ⟨res, h1, _, h3, h4⟩ := compress_output_eq input_chars input_chars_size
    char_frequency order lengths zipped_chars hsize
  have hr := rle_around_run pre post c L hL hpre hpost
  rw [← hs] at hr
  refine ⟨res, h1, ?_, ?_⟩
  · rw [h3, hr]
    simp
  · rw [h4, hr]
    have hlt : (rle pre).length < ((rle pre ++ (c, L) :: rle post).map stored).length := by
      simp
    rw [fill_at_zero _ _ _ hlt]
    simp only [List.get_eq_getElem, List.map_append, List.map_cons, stored]
    rw [List.getElem_append_right (by simp)]
    simp

set_option maxRecDepth 100000 in
/-- Witness for C19: a run of 300 is stored with count 44 and a run of 256 with
count 0. -/
theorem compress_run_count_mod_256_witness :
    (∃ res, compress (c_string (List.replicate 300 97)) 300 (fun _ => 0) 0 (fun _ => ⟨0, 0⟩)
        (fun _ => ⟨0, 0⟩) = some res ∧
      (((rle []).length : Nat) : Int) < (res.2.2 0).length ∧
      res.1 (rle []).length = { character := 97, occurence := 44 }) ∧
    (∃ res, compress (c_string (98 :: List.replicate 256 97 ++ [99])) 258 (fun _ => 0) 0
        (fun _ => ⟨0, 0⟩) (fun _ => ⟨0, 0⟩) = some res ∧
      (((rle [98]).length : Nat) : Int) < (res.2.2 0).length ∧
      res.1 (rle [98]).length = { character := 97, occurence := 0 }) :=
  ⟨compress_run_count_mod_256 (c_string (List.replicate 300 97)) 300 (fun _ => 0) 0
      (fun _ => ⟨0, 0⟩) (fun _ => ⟨0, 0⟩) [] [] 97 300 (by decide) (by decide) (by decide)
      (by decide),
    compress_run_count_mod_256 (c_string (98 :: List.replicate 256 97 ++ [99])) 258
      (fun _ => 0) 0 (fun _ => ⟨0, 0⟩) (fun _ => ⟨0, 0⟩) [98] [99] 97 256 (by decide)
      (by decide) (by decide) (by decide)⟩

/-! ## Independence of the schedule -/

theorem add_all_apply (l : List (Int × Nat)) : ∀ (cf : Int → Int) (j : Int),
    add_all cf l j = cf j + tally l j := by
  induction l with
  | nil => intro cf j; simp [add_all, tally]
  | cons p ps ih =>
    intro cf j
    have h := ih (increment_char_frequency cf p.1 (p.2 : Int)) j
    simp only [add_all, List.foldl_cons] at h ⊢
    rw [h]
    simp only [tally, List.map_cons, List.sum_cons, increment_char_frequency, upd]
    by_cases e : j = p.1 - 97
    · subst e
      simp
      ring
    · have e2 : ¬ p.1 - 97 = j := fun h => e h.symm
      simp [e, e2]

theorem compress_phase_char_frequency (K : Nat) (input : Nat → Int) (N : Nat)
    (heap : Nat → Nat → zipped_char) :
    ∀ (ws : List Nat) (sh : shared),
    ∃ sh1, compress_phase K input N heap ws sh = some sh1 ∧
      ∀ j, sh1.char_frequency j =
        sh.char_frequency j + (ws.map (fun w => tally (worker_incs K input N w) j)).sum := by
  intro ws
  induction ws with
  | nil => intro sh; exact ⟨sh, rfl, by simp⟩
  | cons w rest ih =>
    intro sh
    have hstep : thread_execution_compress input heap (create_args K 0 N w) sh =
        some { sh with
          lengths := upd sh.lengths w
            { sh.lengths w with length := ((worker_emitted K input N w).length : Int) }
          char_frequency := add_all sh.char_frequency (worker_incs K input N w)
          zipped_chars_local := upd sh.zipped_chars_local w
            (fill (heap w) 0 (worker_emitted K input N w)) } := by
      simp only [thread_execution_compress, compress_spec]
      rfl
    obtain ⟨sh1, h1, h2⟩ := ih
      { sh with
          lengths := upd sh.lengths w
            { sh.lengths w with length := ((worker_emitted K input N w).length : Int) }
          char_frequency := add_all sh.char_frequency (worker_incs K input N w)
          zipped_chars_local := upd sh.zipped_chars_local w
            (fill (heap w) 0 (worker_emitted K input N w)) }
    refine ⟨sh1, ?_, ?_⟩
    · simp only [compress_phase, hstep]
      exact h1
    · intro j
      rw [h2 j]
      simp only [add_all_apply, List.map_cons, List.sum_cons]
      ring

/-- The histogram that `pzip` returns, entry by entry. -/
theorem pzip_char_frequency (K : Nat) (input : Nat → Int) (N : Nat) (z : Int → zipped_char)
    (cf : Int → Int) (env : run_env) (hc : env.compress_order.Perm (List.range K))
    (r : pzip_result) (hr : pzip K input N z cf env = some r) (j : Int) :
    r.char_frequency j =
      cf j + ((List.range K).map (fun w => tally (worker_incs K input N w) j)).sum := by
  obtain ⟨sh1, p1, p2⟩ := compress_phase_char_frequency K input N env.heap
    env.compress_order
    { lengths := malloc_lengths K env.temp, char_frequency := cf,
      zipped_chars := z, zipped_chars_local := env.heap }
  have hrun : pzip K input N z cf env = some
      { zipped_chars := (write_phase K N env.write_order sh1).zipped_chars
        zipped_chars_count :=
          ((write_phase K N env.write_order sh1).lengths (K - 1)).length +
            ((write_phase K N env.write_order sh1).lengths (K - 1)).start_index
        char_frequency := (write_phase K N env.write_order sh1).char_frequency
        final := write_phase K N env.write_order sh1 } := by
    simp only [pzip, create_threads, p1]
  rw [hrun] at hr
  have hcf : (write_phase K N env.write_order sh1).char_frequency = sh1.char_frequency := by
    clear hrun hr p1 p2
    generalize env.write_order = ws
    induction ws generalizing sh1 with
    | nil => rfl
    | cons w rest ih =>
      simp only [write_phase]
      rw [ih]
      rfl
  have e : r.char_frequency = sh1.char_frequency := by
    rw [← hcf]
    injection hr with hr
    rw [← hr]
  rw [e, p2 j]
  congr 1
  exact List.Perm.sum_eq (hc.map _)

/-- C12: for every input and every worker count `K ≥ 1`, two runs of `pzip` on
the same arguments that differ in the order in which the workers run their
compression phase, in the order in which they then run `write_to_zipped_chars`
(and in the contents of the allocated blocks) return the same array
`zipped_chars`, the same `zipped_chars_count` and the same `char_frequency`.  The
output is in slice order, the concatenation of the workers' outputs for the
workers 0, 1, ..., `K - 1`, whatever the order of arrival. -/
theorem pzip_schedule_independent (K N : Nat) (input : Nat → Int)
    (z : Int → zipped_char) (cf : Int → Int) (env1 env2 : run_env) (hK : 1 ≤ K)
    (hc1 : env1.compress_order.Perm (List.range K))
    (hw1 : env1.write_order.Perm (List.range K))
    (hc2 : env2.compress_order.Perm (List.range K))
    (hw2 : env2.write_order.Perm (List.range K)) :
    ∃ r1 r2, pzip K input N z cf env1 = some r1 ∧ pzip K input N z cf env2 = some r2 ∧
      zipped_output r1 = zipped_output r2 ∧
      r1.zipped_chars_count = r2.zipped_chars_count ∧
      r1.char_frequency = r2.char_frequency ∧
      r1.zipped_chars = r2.zipped_chars ∧
      zipped_output r1 = ((List.range K).map (worker_output r1.final)).flatten ∧
      zipped_output r2 = ((List.range K).map (worker_output r2.final)).flatten := by
  obtain ⟨r1, a1, _, _, a4, a5, a6, a7, _⟩ := pzip_spec K input N z cf env1 hK hc1 hw1
  obtain ⟨r2, b1, _, _, b4, b5, b6, b7, _⟩ := pzip_spec K input N z cf env2 hK hc2 hw2
  have hout : zipped_output r1 = zipped_output r2 := by rw [a6, b6]
  have hcount : r1.zipped_chars_count = r2.zipped_chars_count := by rw [a5, b5]
  refine ⟨r1, r2, a1, b1, hout, hcount, ?_, ?_, ?_, ?_⟩
  · funext j
    rw [pzip_char_frequency K input N z cf env1 hc1 r1 a1 j,
      pzip_char_frequency K input N z cf env2 hc2 r2 b1 j]
  · funext idx
    by_cases hin : idx < 0 ∨ (worker_offset K input N K : Int) ≤ idx
    · rw [a7 idx hin, b7 idx hin]
    · obtain ⟨n, rfl⟩ : ∃ n : Nat, idx = n := ⟨idx.toNat, by omega⟩
      have hn : n < worker_offset K input N K := by omega
      have h := hout
      simp only [zipped_output, a5, b5, Int.toNat_ofNat] at h
      exact (List.map_inj_left.1 h) n (List.mem_range.2 hn)
  · rw [a6]
    congr 1
    apply List.map_congr_left
    intro i hi
    exact (a4 i (List.mem_range.mp hi)).symm
  · rw [b6]
    congr 1
    apply List.map_congr_left
    intro i hi
    exact (b4 i (List.mem_range.mp hi)).symm

/-- Witness for C12: the input "aabbbcdd" with four workers, once in index order
and once with the compression phase in the order 3, 1, 0, 2 and the writes in
the order 2, 3, 0, 1. -/
theorem pzip_schedule_independent_witness :
    ∃ r1 r2,
      pzip 4 (c_string [97, 97, 98, 98, 98, 99, 100, 100]) 8 (fun _ => ⟨0, 0⟩) (fun _ => 0)
        (env0 4) = some r1 ∧
      pzip 4 (c_string [97, 97, 98, 98, 98, 99, 100, 100]) 8 (fun _ => ⟨0, 0⟩) (fun _ => 0)
        { temp := fun _ => ⟨5, 5⟩, heap := fun _ _ => ⟨1, 1⟩,
          compress_order := [3, 1, 0, 2], write_order := [2, 3, 0, 1] } = some r2 ∧
      zipped_output r1 = zipped_output r2 ∧
      r1.zipped_chars_count = r2.zipped_chars_count ∧
      r1.char_frequency = r2.char_frequency ∧
      r1.zipped_chars = r2.zipped_chars ∧
      zipped_output r1 = ((List.range 4).map (worker_output r1.final)).flatten ∧
      zipped_output r2 = ((List.range 4).map (worker_output r2.final)).flatten :=
  pzip_schedule_independent 4 8 (c_string [97, 97, 98, 98, 98, 99, 100, 100])
    (fun _ => ⟨0, 0⟩) (fun _ => 0) (env0 4)
    { temp := fun _ => ⟨5, 5⟩, heap := fun _ _ => ⟨1, 1⟩,
      compress_order := [3, 1, 0, 2], write_order := [2, 3, 0, 1] }
    (by decide) (List.Perm.refl _) (List.Perm.refl _) (by decide) (by decide)

/-! ## The reads of `compress` -/

theorem compress_loop_reads_spec (f : Nat → Int) (size : Nat) :
    ∀ (n : Nat) (s : compress_state), s.char_ptr ≤ s.runner → size = s.runner + n →
      size ∈ compress_loop_reads f size (n + 1) s ∧
      ∀ i, i ∈ compress_loop_reads f size (n + 1) s → i ≤ size := by
  intro n
  induction n with
  | zero =>
    intro s hle hsz
    have hr : s.runner = size := by omega
    simp only [compress_loop_reads, compress_body_reads, compress_body, hr, true_or, if_true,
      List.nil_append, List.append_nil]
    refine ⟨by simp, ?_⟩
    intro i hi
    simp only [List.mem_cons, List.mem_singleton, List.not_mem_nil, or_false] at hi
    omega
  | succ n ih =>
    intro s hle hsz
    have hr : s.runner ≠ size := by omega
    by_cases hc : f s.char_ptr = f s.runner
    · have hb : compress_body f size s = s := by simp [compress_body, hr, hc]
      obtain ⟨h1, h2⟩ := ih { s with runner := s.runner + 1 } (by simp; omega)
        (by simp; omega)
      rw [compress_loop_reads]
      simp only [hb, hr, if_false, compress_body_reads, hc, false_or, ne_eq,
        not_true_eq_false, List.append_nil]
      refine ⟨List.mem_append_right _ h1, ?_⟩
      intro i hi
      rcases List.mem_append.mp hi with h | h
      · simp only [List.mem_cons, List.mem_singleton, List.not_mem_nil, or_false] at h
        omega
      · exact h2 i h
    · have hb : (compress_body f size s).runner = s.runner := by
        simp [compress_body, hr, hc]
      have hb2 : (compress_body f size s).char_ptr = s.runner := by
        simp [compress_body, hr, hc]
      obtain ⟨h1, h2⟩ := ih
        { compress_body f size s with runner := (compress_body f size s).runner + 1 }
        (by simp only [hb, hb2]; omega) (by simp only [hb]; omega)
      rw [compress_loop_reads]
      simp only [hb, hr, if_false, compress_body_reads, hc, false_or, ne_eq,
        not_false_eq_true, if_true]
      simp only [hb] at h1 h2
      refine ⟨List.mem_append_right _ h1, ?_⟩
      intro i hi
      rcases List.mem_append.mp hi with h | h
      · simp only [List.mem_append, List.mem_cons, List.mem_singleton, List.not_mem_nil,
          or_false] at h
        omega
      · exact h2 i h

theorem incs_getLast (last : Int) (l : List (Int × Nat)) (p : Int × Nat)
    (h : l.getLast? = some p) : (incs last l).getLast? = some (last, p.2) := by
  induction l with
  | nil => simp at h
  | cons a rest ih =>
    cases rest with
    | nil =>
      simp only [List.getLast?_singleton, Option.some.injEq] at h
      simp [incs, h]
    | cons b rest2 =>
      rw [List.getLast?_cons_cons] at h
      have := ih h
      cases hrest : incs last (b :: rest2) with
      | nil => rw [hrest] at this; simp at this
      | cons c t =>
        rw [hrest] at this
        simp only [incs, hrest, List.getLast?_cons_cons]
        exact this

/-- C18, the code on any slice: `compress` reads `input_chars` at the indices
`0 .. input_chars_size` and does read it at the index `input_chars_size`, the
first one after the slice; the character read there is the one that the last
call of `increment_char_frequency` receives.  On the slice "aab" (followed by
the NUL of the string) the reads are at 0, 0, 0, 1, 0, 2, 0, 2, 2, 3 and the
entry updated last is the one at `0 - 'a' = -97`; on an empty slice the index 0
is read. -/
theorem compress_reads_past_slice (input_chars : Nat → Int) (input_chars_size : Nat)
    (char_frequency : Int → Int) (order : Nat) (lengths : Nat → write_to_location)
    (zipped_chars : Nat → zipped_char) :
    input_chars_size ∈ compress_reads input_chars input_chars_size char_frequency zipped_chars ∧
    (∀ i, i ∈ compress_reads input_chars input_chars_size char_frequency zipped_chars →
      i ≤ input_chars_size) ∧
    (∃ res n, compress input_chars input_chars_size char_frequency order lengths zipped_chars
        = some res ∧
      res.2.1 = add_all char_frequency
        (incs (input_chars input_chars_size) (runs input_chars input_chars_size)) ∧
      (incs (input_chars input_chars_size) (runs input_chars input_chars_size)).getLast?
        = some (input_chars input_chars_size, n)) ∧
    compress_reads (c_string [97, 97, 98]) 3 (fun _ => 0) (fun _ => ⟨0, 0⟩)
      = [0, 0, 0, 1, 0, 2, 0, 2, 2, 3] ∧
    (compress (c_string [97, 97, 98]) 3 (fun _ => 0) 0 (fun _ => ⟨0, 0⟩)
      (fun _ => ⟨0, 0⟩)).map (fun res => res.2.1 (-97)) = some 1 ∧
    compress_reads (c_string [97, 97, 98]) 0 (fun _ => 0) (fun _ => ⟨0, 0⟩) = [0, 0] := by
  obtain ⟨h1, h2⟩ := compress_loop_reads_spec input_chars input_chars_size input_chars_size
    { char_ptr := 0, runner := 0, zipped_chars_index := 0,
      zipped_chars := zipped_chars, char_frequency := char_frequency } (by simp) (by simp)
  refine ⟨h1, h2, ?_, by decide, by decide, by decide⟩
  obtain ⟨m, t, e⟩ := rle_go_head ((List.range' 0 input_chars_size).map input_chars)
    (input_chars 0) 0
  have hne : (runs input_chars input_chars_size).getLast?.isSome := by
    simp only [runs, e]
    simp [List.getLast?_cons]
  obtain ⟨p, hp⟩ := Option.isSome_iff_exists.mp hne
  exact ⟨_, p.2, compress_spec input_chars input_chars_size char_frequency order lengths
    zipped_chars, rfl, incs_getLast _ _ p hp⟩

/-! ## Arguments that are not positive -/

/-- The slices of `create_args_int` are those of `create_args` at the input
length `n_threads * size`. -/
theorem create_args_int_eq (K N : Int) (i : Nat) (hK : 1 ≤ K)
    (hs : 0 ≤ (create_args_int K 0 N 0).2.1) :
    (((create_args K.toNat 0 (K.toNat * (create_args_int K 0 N 0).2.1.toNat) i).input_chars
        : Nat) : Int) = (create_args_int K 0 N i).1 ∧
    (((create_args K.toNat 0 (K.toNat * (create_args_int K 0 N 0).2.1.toNat) i).input_chars_size
        : Nat) : Int) = (create_args_int K 0 N i).2.1 ∧
    (((create_args K.toNat 0 (K.toNat * (create_args_int K 0 N 0).2.1.toNat) i).order
        : Nat) : Int) = (create_args_int K 0 N i).2.2 := by
  simp only [create_args_int] at hs ⊢
  have hKpos : 0 < K.toNat := by omega
  have hq : K.toNat * (Int.tdiv N K).toNat / K.toNat = (Int.tdiv N K).toNat :=
    Nat.mul_div_cancel_left _ hKpos
  simp only [create_args, hq, Nat.zero_add, Int.zero_add]
  refine ⟨?_, ?_, ?_⟩
  · push_cast
    rw [Int.toNat_of_nonneg hs]
  · rw [Int.toNat_of_nonneg hs]
  · trivial

/-- The run of `pzip` depends on the input length only through the slice length. -/
theorem pzip_congr_size (K N1 N2 : Nat) (input : Nat → Int) (z : Int → zipped_char)
    (cf : Int → Int) (env : run_env) (h : N1 / K = N2 / K) :
    pzip K input N1 z cf env = pzip K input N2 z cf env := by
  have ha : ∀ i, create_args K 0 N1 i = create_args K 0 N2 i := by
    intro i
    simp only [create_args, h]
  have hcp : ∀ (ws : List Nat) (sh : shared),
      compress_phase K input N1 env.heap ws sh = compress_phase K input N2 env.heap ws sh := by
    intro ws
    induction ws with
    | nil => intro sh; rfl
    | cons w rest ih =>
      intro sh
      simp only [compress_phase, ha]
      cases thread_execution_compress input env.heap (create_args K 0 N2 w) sh with
      | none => rfl
      | some sh1 => exact ih sh1
  have hwp : ∀ (ws : List Nat) (sh : shared),
      write_phase K N1 ws sh = write_phase K N2 ws sh := by
    intro ws
    induction ws with
    | nil => intro sh; rfl
    | cons w rest ih =>
      intro sh
      simp only [write_phase, ha]
      exact ih _
  simp only [pzip, create_threads, hcp, hwp]

/-- On arguments that are not negative `pzip_int` is `pzip`. -/
theorem pzip_int_of_nat (K N : Nat) (input : Nat → Int) (z : Int → zipped_char)
    (cf : Int → Int) (env : run_env) (hK : 1 ≤ K) :
    pzip_int (K : Int) input (N : Int) z cf env = pzip K input N z cf env := by
  have hq : Int.tdiv (N : Int) (K : Int) = ((N / K : Nat) : Int) :=
    (Int.ofNat_tdiv N K).symm
  have hc : (1 : Int) ≤ (K : Int) ∧ 0 ≤ (create_args_int (K : Int) 0 (N : Int) 0).2.1 := by
    refine ⟨by omega, ?_⟩
    show 0 ≤ Int.tdiv (N : Int) (K : Int)
    rw [hq]
    exact Int.ofNat_nonneg _
  rw [pzip_int, if_pos hc]
  show pzip (K : Int).toNat input ((K : Int).toNat * (Int.tdiv (N : Int) (K : Int)).toNat)
    z cf env = pzip K input N z cf env
  rw [hq, Int.toNat_ofNat, Int.toNat_ofNat]
  apply pzip_congr_size
  exact Nat.mul_div_cancel_left _ (by omega)

/-- C13, counterexample: `pzip` called with `n_threads = 2` and
`input_chars_size = -1` on the string "ab", with a zeroed histogram and an
output array of pairs (NUL, 5).  The call returns a result, no error: both
workers have run on an empty slice, the cells 0 and 1 of `zipped_chars` hold
(a,0) and `zipped_chars_count` is 2. -/
theorem pzip_int_negative_size_runs :
    (pzip_int 2 (c_string [97, 98]) (-1) (fun _ => ⟨0, 5⟩) (fun _ => 0) (env0 2)).map
      (fun r => (r.zipped_chars 0, r.zipped_chars 1, r.zipped_chars_count,
        (List.range 2).map (worker_output r.final)))
      = some (⟨97, 0⟩, ⟨97, 0⟩, 2, [[⟨97, 0⟩], [⟨97, 0⟩]]) := by
  decide

/-- C13, as amended: `pzip` makes no check of its arguments and has no error to
report.  Called with `n_threads ≥ 1` and a negative `input_chars_size` greater
than `-n_threads`, it launches every worker on an empty slice and returns what
the run on an input of length 0 returns. -/
theorem pzip_int_negative_size (K N : Int) (input : Nat → Int) (z : Int → zipped_char)
    (cf : Int → Int) (env : run_env) (hK : 1 ≤ K) (hN : N < 0) (hNK : -K < N)
    (hc : env.compress_order.Perm (List.range K.toNat))
    (hw : env.write_order.Perm (List.range K.toNat)) :
    (∀ i : Nat, (create_args_int K 0 N i).2.1 = 0) ∧
    pzip_int K input N z cf env = pzip K.toNat input 0 z cf env ∧
    ∃ r, pzip_int K input N z cf env = some r := by
  have hq : Int.tdiv N K = 0 := by
    have h1 : Int.tdiv (-N) K = 0 := Int.tdiv_eq_zero_of_lt (by omega) (by omega)
    have h2 : Int.tdiv (- -N) K = -(Int.tdiv (-N) K) := Int.neg_tdiv _ _
    rw [Int.neg_neg, h1] at h2
    simpa using h2
  have he : pzip_int K input N z cf env = pzip K.toNat input 0 z cf env := by
    simp only [pzip_int, create_args_int, hq, hK, le_refl, and_self, if_true, Int.toNat_zero,
      Nat.mul_zero]
  refine ⟨fun i => by simp only [create_args_int, hq], he, ?_⟩
  obtain ⟨r, h1, _⟩ := pzip_spec K.toNat input 0 z cf env (by omega) hc hw
  exact ⟨r, by rw [he, h1]⟩

/-- Witness for C13 as amended: four workers and `input_chars_size = -3`. -/
theorem pzip_int_negative_size_witness :
    ((1 : Int) ≤ 4 ∧ (-3 : Int) < 0 ∧ -(4 : Int) < -3) ∧
    (∀ i : Nat, (create_args_int 4 0 (-3) i).2.1 = 0) ∧
    pzip_int 4 (c_string [97, 98]) (-3) (fun _ => ⟨0, 5⟩) (fun _ => 0) (env0 4)
      = pzip (4 : Int).toNat (c_string [97, 98]) 0 (fun _ => ⟨0, 5⟩) (fun _ => 0) (env0 4) ∧
    ∃ r, pzip_int 4 (c_string [97, 98]) (-3) (fun _ => ⟨0, 5⟩) (fun _ => 0) (env0 4)
      = some r :=
  ⟨by decide,
    pzip_int_negative_size 4 (-3) (c_string [97, 98]) (fun _ => ⟨0, 5⟩) (fun _ => 0) (env0 4)
      (by decide) (by decide) (by decide) (List.Perm.refl _) (List.Perm.refl _)⟩

/-! ## The barrier -/

theorem waiting_le (pc : Nat → Nat) : ∀ k, waiting pc k ≤ k := by
  intro k
  induction k with
  | zero => exact le_refl 0
  | succ k ih =>
    simp only [waiting]
    split <;> omega

theorem waiting_lt (pc : Nat → Nat) (j : Nat) (hj : pc j < 2) :
    ∀ k, j < k → waiting pc k < k := by
  intro k
  induction k with
  | zero => intro h; omega
  | succ k ih =>
    intro h
    simp only [waiting]
    by_cases e : j = k
    · subst e
      have := waiting_le pc j
      rw [if_neg (by omega)]
      omega
    · have := ih (by omega)
      split <;> omega

theorem waiting_full (pc : Nat → Nat) : ∀ k, waiting pc k = k → ∀ j, j < k → 2 ≤ pc j := by
  intro k h j hj
  by_contra hc
  have := waiting_lt pc j (by omega) k hj
  omega

theorem waiting_upd_same (pc : Nat → Nat) (i v : Nat) (h : 2 ≤ pc i ↔ 2 ≤ v) :
    ∀ k, waiting (upd pc i v) k = waiting pc k := by
  intro k
  induction k with
  | zero => rfl
  | succ k ih =>
    simp only [waiting, ih]
    by_cases e : k = i
    · subst e
      simp only [upd, if_true]
      by_cases h2 : 2 ≤ v
      · rw [if_pos h2, if_pos (h.2 h2)]
      · rw [if_neg h2, if_neg (fun h3 => h2 (h.1 h3))]
    · simp only [upd, e, if_false]

theorem waiting_upd_new (pc : Nat → Nat) (i v : Nat) (h1 : pc i < 2) (h2 : 2 ≤ v) :
    ∀ k, waiting (upd pc i v) k = waiting pc k + (if i < k then 1 else 0) := by
  intro k
  induction k with
  | zero => rfl
  | succ k ih =>
    simp only [waiting, ih]
    by_cases e : k = i
    · subst e
      simp only [upd, if_true]
      rw [if_pos h2, if_neg (by omega), if_neg (by omega), if_pos (by omega)]
    · simp only [upd, e, if_false]
      have h3 : (i < k + 1) ↔ (i < k) := by omega
      simp only [h3]
      omega

theorem write_to_zipped_chars_length (g : Int → zipped_char) (loc : Nat → zipped_char)
    (order : Nat) (lengths : Nat → write_to_location) (i : Nat) :
    ((write_to_zipped_chars g loc order lengths).2 i).length = (lengths i).length := by
  by_cases hs : (lengths order).start_index = -1
  · simp only [write_to_zipped_chars, hs, if_true]
    exact calc_starting_index_length lengths order i
  · simp only [write_to_zipped_chars, hs, if_false]

theorem thread_execution_compress_eq (K : Nat) (input : Nat → Int) (N : Nat)
    (heap : Nat → Nat → zipped_char) (w : Nat) (sh : shared) :
    thread_execution_compress input heap (create_args K 0 N w) sh =
      some { sh with
        lengths := upd sh.lengths w
          { sh.lengths w with length := ((worker_emitted K input N w).length : Int) }
        char_frequency := add_all sh.char_frequency (worker_incs K input N w)
        zipped_chars_local := upd sh.zipped_chars_local w
          (fill (heap w) 0 (worker_emitted K input N w)) } := by
  simp only [thread_execution_compress, compress_spec]
  rfl

theorem threads_init_ok (K : Nat) (input : Nat → Int) (N : Nat) (z : Int → zipped_char)
    (cf : Int → Int) (env : run_env) :
    threads_ok K input N z env.temp (threads_init K z cf env) := by
  have hw : ∀ k, waiting (fun _ => 0) k = 0 := by
    intro k
    induction k with
    | zero => rfl
    | succ k ih => simp [waiting, ih]
  refine ⟨rfl, Nat.zero_le _, ?_, fun _ _ => rfl, ?_, ?_, ?_, ?_, ?_⟩
  · intro h; simp [threads_init] at h
  · simp [threads_init, hw]
  · intro i h; simp [threads_init] at h
  · intro j h; simp [threads_init] at h
  · intro i; simp [threads_init]
  · intro _; exact ⟨rfl, fun _ => rfl⟩

theorem step_ok (K : Nat) (input : Nat → Int) (N : Nat) (heap : Nat → Nat → zipped_char)
    (z : Int → zipped_char) (temp : Nat → write_to_location) (e : event) (s s1 : threads)
    (hok : threads_ok K input N z temp s) (hstep : step K input N heap e s = some s1) :
    threads_ok K input N z temp s1 := by
  obtain ⟨o1, o2, o3, o4, o5, o6, o7, o8, o9⟩ := hok
  have hwl := waiting_le s.pc K
  cases e with
  | create =>
    simp only [step] at hstep
    split at hstep
    · rename_i h
      injection hstep with hstep
      subst hstep
      refine ⟨o1, ?_, ?_, ?_, ?_, o6, o7, o8, o9⟩
      · simp only []; omega
      · intro h1; simp only [] at h1; omega
      · intro i hi; exact o4 i (by simp only [] at hi; omega)
      · exact o5
    · simp at hstep
  | main_wait =>
    simp only [step] at hstep
    split at hstep
    · rename_i h
      injection hstep with hstep
      subst hstep
      have harr : s.arrived = waiting s.pc K := by rw [o5, if_neg (by omega)]; omega
      refine ⟨o1, o2, fun _ => h.2, o4, ?_, ?_, o7, o8, o9⟩
      · simp only [harr]
        simp
      · intro i hi
        have := o6 i hi
        simp only [] at this ⊢
        omega
    · simp at hstep
  | main_go =>
    simp only [step] at hstep
    split at hstep
    · rename_i h
      injection hstep with hstep
      subst hstep
      refine ⟨o1, o2, fun _ => o3 (by omega), o4, ?_, o6, o7, o8, o9⟩
      simp only []
      rw [o5, if_pos (by omega)]
      simp
    · simp at hstep
  | main_finish =>
    simp only [step] at hstep
    split at hstep
    · rename_i h
      injection hstep with hstep
      subst hstep
      refine ⟨o1, o2, fun _ => o3 (by omega), o4, ?_, o6, o7, o8, o9⟩
      simp only []
      rw [o5, if_pos (by omega)]
      simp
    · simp at hstep
  | compress i =>
    simp only [step] at hstep
    split at hstep
    · rename_i h
      rw [thread_execution_compress_eq] at hstep
      injection hstep with hstep
      subst hstep
      refine ⟨o1, o2, o3, ?_, ?_, ?_, ?_, ?_, ?_⟩
      · intro j hj
        simp only [] at hj ⊢
        rw [upd_other _ _ _ _ (by omega)]
        exact o4 j hj
      · simp only []
        rw [waiting_upd_same s.pc i 1 (by omega)]
        exact o5
      · intro j hj
        simp only [] at hj ⊢
        by_cases e : j = i
        · subst e; simp [upd] at hj
        · rw [upd_other _ _ _ _ e] at hj
          exact o6 j hj
      · intro j hj
        simp only [] at hj ⊢
        by_cases e : j = i
        · subst e; simp [upd]
        · rw [upd_other _ _ _ _ e] at hj
          rw [upd_other _ _ _ _ e]
          exact o7 j hj
      · intro j
        by_cases e : j = i
        · subst e; simp [upd, o8 j, h.2]
        · simp [upd, e, o8 j]
      · intro hall
        have hall2 : ∀ j, s.pc j < 4 := by
          intro j
          by_cases e : j = i
          · subst e; omega
          · have := hall j
            simp only [] at this
            rwa [upd_other _ _ _ _ e] at this
        obtain ⟨a, b⟩ := o9 hall2
        refine ⟨a, fun j => ?_⟩
        simp only []
        rw [← b j]
        by_cases e : j = i
        · subst e; simp [upd]
        · rw [upd_other _ _ _ _ e]
    · simp at hstep
  | wait i =>
    simp only [step] at hstep
    split at hstep
    · rename_i h
      injection hstep with hstep
      subst hstep
      have hiK : i < K := by
        by_contra hc
        have := o4 i (by omega)
        omega
      have hic : i < s.created := by
        by_contra hc
        have := o4 i (by omega)
        omega
      have hlt := waiting_lt s.pc i (by omega) K hiK
      refine ⟨o1, o2, o3, ?_, ?_, ?_, ?_, ?_, ?_⟩
      · intro j hj
        simp only [] at hj ⊢
        have e : j ≠ i := by omega
        rw [upd_other _ _ _ _ e]
        exact o4 j hj
      · simp only []
        rw [waiting_upd_new s.pc i 2 (by omega) (le_refl 2), if_pos hiK, o5]
        omega
      · intro j hj
        simp only [] at hj ⊢
        by_cases e : j = i
        · subst e; simp [upd] at hj
        · rw [upd_other _ _ _ _ e] at hj
          have := o6 j hj
          have h5 := o5
          split at h5 <;> omega
      · intro j hj
        simp only [] at hj ⊢
        by_cases e : j = i
        · subst e; exact o7 j (by omega)
        · rw [upd_other _ _ _ _ e] at hj
          exact o7 j hj
      · intro j
        by_cases e : j = i
        · subst e; simp [upd, o8 j, h]
        · simp [upd, e, o8 j]
      · intro hall
        have hall2 : ∀ j, s.pc j < 4 := by
          intro j
          by_cases e : j = i
          · subst e; omega
          · have := hall j
            simp only [] at this
            rwa [upd_other _ _ _ _ e] at this
        exact o9 hall2
    · simp at hstep
  | go i =>
    simp only [step] at hstep
    split at hstep
    · rename_i h
      injection hstep with hstep
      subst hstep
      refine ⟨o1, o2, o3, ?_, ?_, ?_, ?_, ?_, ?_⟩
      · intro j hj
        simp only [] at hj ⊢
        have e : j ≠ i := by
          intro e
          subst e
          have := o4 j hj
          omega
        rw [upd_other _ _ _ _ e]
        exact o4 j hj
      · simp only []
        rw [waiting_upd_same s.pc i 3 (by omega)]
        exact o5
      · intro j _
        exact h.2
      · intro j hj
        simp only [] at hj ⊢
        by_cases e : j = i
        · subst e; exact o7 j (by omega)
        · rw [upd_other _ _ _ _ e] at hj
          exact o7 j hj
      · intro j
        by_cases e : j = i
        · subst e; simp [upd, o8 j, h.1]
        · simp [upd, e, o8 j]
      · intro hall
        have hall2 : ∀ j, s.pc j < 4 := by
          intro j
          by_cases e : j = i
          · subst e; omega
          · have := hall j
            simp only [] at this
            rwa [upd_other _ _ _ _ e] at this
        exact o9 hall2
    · simp at hstep
  | write i =>
    simp only [step] at hstep
    split at hstep
    · rename_i h
      injection hstep with hstep
      subst hstep
      have harr := o6 i (by omega)
      refine ⟨o1, o2, o3, ?_, ?_, ?_, ?_, ?_, ?_⟩
      · intro j hj
        simp only [] at hj ⊢
        have e : j ≠ i := by
          intro e
          subst e
          have := o4 j hj
          omega
        rw [upd_other _ _ _ _ e]
        exact o4 j hj
      · simp only []
        rw [waiting_upd_same s.pc i 4 (by omega)]
        exact o5
      · intro j _
        exact harr
      · intro j hj
        simp only [] at hj ⊢
        have hj2 : 1 ≤ s.pc j := by
          by_cases e : j = i
          · subst e; omega
          · rwa [upd_other _ _ _ _ e] at hj
        have := o7 j hj2
        rw [← this]
        exact write_to_zipped_chars_length s.sh.zipped_chars (s.sh.zipped_chars_local i) i
          s.sh.lengths j
      · intro j
        by_cases e : j = i
        · subst e; simp [upd, o8 j, h]
        · simp [upd, e, o8 j]
      · intro hall
        have := hall i
        simp only [upd_same] at this
        omega
    · simp at hstep

theorem run_events_ok (K : Nat) (input : Nat → Int) (N : Nat)
    (heap : Nat → Nat → zipped_char) (z : Int → zipped_char) (temp : Nat → write_to_location) :
    ∀ (tr : List event) (s s1 : threads), threads_ok K input N z temp s →
      run_events K input N heap tr s = some s1 → threads_ok K input N z temp s1 := by
  intro tr
  induction tr with
  | nil =>
    intro s s1 hok h
    simp only [run_events, Option.some.injEq] at h
    rw [← h]
    exact hok
  | cons e es ih =>
    intro s s1 hok h
    simp only [run_events] at h
    cases hs : step K input N heap e s with
    | none => rw [hs] at h; simp at h
    | some s2 =>
      rw [hs] at h
      exact ih s2 s1 (step_ok K input N heap z temp e s s2 hok hs) h

/-- C14: in every interleaving of the steps of the `K` workers and of the
coordinating thread, started in the state in which the barrier is initialised
for `K + 1` parties, each worker calls `pthread_barrier_wait` at most once
(once when it has passed `compress`, never before), and whenever some worker is
past the barrier, and so can read or compute a `start_index` and copy pairs into
`zipped_chars`, every worker has run `compress` and `lengths[j].length` is its
final value.  As long as no worker has run `write_to_zipped_chars`, no
`start_index` has changed and `zipped_chars` is untouched. -/
theorem barrier_before_offsets (K N : Nat) (input : Nat → Int) (z : Int → zipped_char)
    (cf : Int → Int) (env : run_env) (tr : List event) (s : threads)
    (h : run_events K input N env.heap tr (threads_init K z cf env) = some s) :
    s.parties = K + 1 ∧
    (∀ i, 3 ≤ s.pc i → ∀ j, j < K →
      1 ≤ s.pc j ∧
      (s.sh.lengths j).length = ((worker_emitted K input N j).length : Int)) ∧
    (∀ i s1, step K input N env.heap (event.write i) s = some s1 → ∀ j, j < K →
      1 ≤ s.pc j ∧
      (s.sh.lengths j).length = ((worker_emitted K input N j).length : Int)) ∧
    (∀ i, s.waits i ≤ 1 ∧ (2 ≤ s.pc i → s.waits i = 1) ∧ (s.pc i < 2 → s.waits i = 0)) ∧
    ((∀ i, s.pc i < 4) →
      s.sh.zipped_chars = z ∧
      ∀ j, (s.sh.lengths j).start_index = (malloc_lengths K env.temp j).start_index) := by
  obtain ⟨o1, _, _, _, o5, o6, o7, o8, o9⟩ := run_events_ok K input N env.heap z env.temp tr
    (threads_init K z cf env) s (threads_init_ok K input N z cf env) h
  have hwl := waiting_le s.pc K
  have key : ∀ i, 3 ≤ s.pc i → ∀ j, j < K →
      1 ≤ s.pc j ∧
      (s.sh.lengths j).length = ((worker_emitted K input N j).length : Int) := by
    intro i hi j hj
    have harr := o6 i hi
    have hfull : waiting s.pc K = K := by
      have h5 := o5
      split at h5 <;> omega
    have h2 := waiting_full s.pc K hfull j hj
    exact ⟨by omega, o7 j (by omega)⟩
  refine ⟨o1, key, ?_, ?_, o9⟩
  · intro i s1 hs
    simp only [step] at hs
    split at hs
    · rename_i hpc
      exact key i (by omega)
    · simp at hs
  · intro i
    rw [o8 i]
    refine ⟨by split <;> omega, fun h2 => by rw [if_pos h2], fun h2 => by rw [if_neg (by omega)]⟩

/-- Witness for C14: two workers on "aabb"; worker 0 compresses and waits before
worker 1 is started, worker 1 is the first past the barrier and writes first. -/
theorem barrier_before_offsets_witness :
    ∃ s, run_events 2 (c_string [97, 97, 98, 98]) 4 (env0 2).heap
        [event.create, event.compress 0, event.wait 0, event.create, event.compress 1,
          event.main_wait, event.wait 1, event.go 1, event.write 1]
        (threads_init 2 (fun _ => ⟨0, 0⟩) (fun _ => 0) (env0 2)) = some s ∧
      s.parties = 2 + 1 ∧
      (∀ i, 3 ≤ s.pc i → ∀ j, j < 2 →
        1 ≤ s.pc j ∧
        (s.sh.lengths j).length
          = ((worker_emitted 2 (c_string [97, 97, 98, 98]) 4 j).length : Int)) ∧
      (∀ i s1, step 2 (c_string [97, 97, 98, 98]) 4 (env0 2).heap (event.write i) s = some s1 →
        ∀ j, j < 2 →
        1 ≤ s.pc j ∧
        (s.sh.lengths j).length
          = ((worker_emitted 2 (c_string [97, 97, 98, 98]) 4 j).length : Int)) ∧
      (∀ i, s.waits i ≤ 1 ∧ (2 ≤ s.pc i → s.waits i = 1) ∧ (s.pc i < 2 → s.waits i = 0)) ∧
      ((∀ i, s.pc i < 4) →
        s.sh.zipped_chars = (fun _ => ⟨0, 0⟩) ∧
        ∀ j, (s.sh.lengths j).start_index = (malloc_lengths 2 (env0 2).temp j).start_index) :=
  ⟨_, rfl,
    barrier_before_offsets 2 4 (c_string [97, 97, 98, 98]) (fun _ => ⟨0, 0⟩) (fun _ => 0)
      (env0 2)
      [event.create, event.compress 0, event.wait 0, event.create, event.compress 1,
        event.main_wait, event.wait 1, event.go 1, event.write 1] _ rfl⟩

end Pzip
